import Mathlib

/-!
Verification of the LZ4 block decompressor core (`src/block/decompress_safe.rs`,
`src/block/mod.rs`) against its natural-language specification.

The Rust source is shallowly embedded: byte buffers are `List UInt8`, `usize`
arithmetic is `Nat` (with Rust `saturating_sub` becoming truncated `Nat`
subtraction), and the `u32` LSIC accumulator wraps modulo `2 ^ 32` as in a
release build. A Rust panic (out-of-bounds slice index or write in the safe
code) is the distinguished outcome `Res.crash`, separate from the ordinary
`DecompressError` returns.
-/

set_option maxHeartbeats 1000000
set_option maxRecDepth 100000

namespace LZ4Flex

/-- Error kind of the decompressor (the `DecompressError` enum as used by
`decompress_safe.rs`; the enum itself lives outside `src/`, its variants are
those named by the spec and by the uses in `decompress_safe.rs`). -/
inductive DecompressError where
  | ExpectedAnotherByte
  | LiteralOutOfBounds
  | OffsetOutOfBounds
  | OutputTooSmall (expected_size actual_size : Nat)
  | UncompressedSizeDiffers (expected actual : Nat)
deriving DecidableEq, Repr

/-- Outcome of a decoder operation. `crash` models a Rust panic (an
out-of-bounds slice index, slice write, or mismatched `copy_from_slice` in the
safe code). `outOfFuel` is the artificial result of exhausting the structural
recursion budget of the decode loop; the entry points supply
`input.length + 1` fuel, which the loop (consuming at least one input byte per
iteration) can never exhaust. -/
inductive Res (α : Type) where
  | ok : α → Res α
  | err : DecompressError → Res α
  | crash : Res α
  | outOfFuel : Res α
deriving DecidableEq, Repr

/-- MINMATCH (src/block/mod.rs line 28). -/
def MINMATCH : Nat := 4

/-- FIT_TOKEN_MASK_LITERAL (decompress_safe.rs line 60). -/
def FIT_TOKEN_MASK_LITERAL : UInt8 := 0b00001111

/-- FIT_TOKEN_MASK_MATCH (decompress_safe.rs line 61). -/
def FIT_TOKEN_MASK_MATCH : UInt8 := 0b11110000

/-- does_token_fit (decompress_safe.rs lines 82-85). -/
def does_token_fit (token : UInt8) : Bool :=
  !((token &&& FIT_TOKEN_MASK_LITERAL) == FIT_TOKEN_MASK_LITERAL
    || (token &&& FIT_TOKEN_MASK_MATCH) == FIT_TOKEN_MASK_MATCH)

/-- Modulus of the 32-bit LSIC accumulator. -/
def U32_MOD : Nat := 4294967296

/-- Loop of read_integer (decompress_safe.rs lines 30-42), structurally
recursing on the bytes remaining after the cursor. The Rust accumulator is a
`u32` and `n += extra as u32` wraps modulo `2 ^ 32` (release-profile
semantics), modelled by the `% U32_MOD`. -/
def read_integer_go : List UInt8 → Nat → Nat → Res (Nat × Nat)
  | [], _, _ => .err .ExpectedAnotherByte
  | extra :: rest, input_pos, n =>
    let n' := (n + extra.toNat) % U32_MOD
    if extra ≠ 0xFF then .ok (n', input_pos + 1)
    else read_integer_go rest (input_pos + 1) n'

/-- read_integer (decompress_safe.rs lines 25-48): LSIC decoding. Returns the
decoded value together with the advanced cursor. -/
def read_integer (input : List UInt8) (input_pos : Nat) : Res (Nat × Nat) :=
  read_integer_go (input.drop input_pos) input_pos 0

/-- read_u16 (decompress_safe.rs lines 52-58): little-endian 16-bit read.
Returns the value; the caller advances the cursor by 2 (the Rust version
advances the `&mut` cursor itself). -/
def read_u16 (input : List UInt8) (input_pos : Nat) : Res Nat :=
  if input_pos + 2 ≤ input.length then
    .ok ((input.getD input_pos 0).toNat + 256 * (input.getD (input_pos + 1) 0).toNat)
  else .err .ExpectedAnotherByte

/-- Write the bytes `xs` into `l` starting at index `i` (the effect of a Rust
`l[i..i+xs.len()].copy_from_slice(xs)` when in bounds; callers guard bounds). -/
def setRange (l : List UInt8) (i : Nat) (xs : List UInt8) : List UInt8 :=
  l.take i ++ xs ++ l.drop (i + xs.length)

/-- The sub-slice `l[start..start+len]` (as a total function; callers guard
bounds where the Rust indexing would panic). -/
def sliceOf (l : List UInt8) (start len : Nat) : List UInt8 :=
  (l.drop start).take len

/-- `slice::copy_within(start..stop, dest)`: memmove semantics (the copied
bytes are the original values of the source range). `none` models the panic
when either range falls outside the slice. -/
def copyWithin (l : List UInt8) (start stop dest : Nat) : Option (List UInt8) :=
  if start ≤ stop ∧ stop ≤ l.length ∧ dest + (stop - start) ≤ l.length then
    some (setRange l dest (sliceOf l start (stop - start)))
  else none

/-- `l[dest..dest+len].fill(v)`; `none` models the panic of the slicing when
out of bounds. -/
def fillRange (l : List UInt8) (dest len : Nat) (v : UInt8) : Option (List UInt8) :=
  if dest + len ≤ l.length then some (setRange l dest (List.replicate len v)) else none

/-- The Sink (spec §4.A; its Rust definition lives outside `src/`).
Modelled from the spec: a fixed-capacity byte buffer with a write cursor
`pos`; `capacity` is the buffer length, `as_slice` views `[0, pos)`, `push`
and `extend` write at `pos` and advance it, and direct indexed access to the
underlying buffer is `output`. -/
structure Sink where
  output : List UInt8
  pos : Nat
deriving DecidableEq, Repr

/-- `Sink::capacity` — length of the underlying buffer (spec §4.A). -/
def Sink.capacity (s : Sink) : Nat := s.output.length

/-- `Sink::as_slice` — read-only view of `[0, pos)` (spec §4.A). -/
def Sink.as_slice (s : Sink) : List UInt8 := s.output.take s.pos

/-- `Sink::set_pos` (spec §4.A cursor update; used by duplicate_slice). -/
def Sink.set_pos (s : Sink) (p : Nat) : Sink := ⟨s.output, p⟩

/-- `Sink::push` — write one byte at `pos`, advance `pos` (spec §4.A); `none`
models the panic of the underlying indexed write when `pos` is at capacity. -/
def Sink.push (s : Sink) (b : UInt8) : Option Sink :=
  if s.pos < s.capacity then some ⟨setRange s.output s.pos [b], s.pos + 1⟩ else none

/-- `Sink::extend_from_slice` — copy a slice at `pos`, advance `pos` (spec
§4.A `extend`); `none` models the panic when the write would exceed
capacity. -/
def Sink.extend_from_slice (s : Sink) (data : List UInt8) : Option Sink :=
  if s.pos + data.length ≤ s.capacity then
    some ⟨setRange s.output s.pos data, s.pos + data.length⟩
  else none

/-- copy_from_dict (decompress_safe.rs lines 265-282). The
`ext_dict.len().overflowing_sub(offset - output.pos())` overflow check becomes
`ext_dict.length < offset - output.pos`; the callers establish
`offset > output.pos`, so the `usize` subtraction `offset - output.pos()`
matches `Nat` subtraction. -/
def copy_from_dict (output : Sink) (ext_dict : List UInt8) (offset match_length : Nat) :
    Res (Nat × Sink) :=
  if ext_dict.length < offset - output.pos then .err .OffsetOutOfBounds
  else
    let dict_offset := ext_dict.length - (offset - output.pos)
    let dict_match_length := min match_length (ext_dict.length - dict_offset)
    match output.extend_from_slice (sliceOf ext_dict dict_offset dict_match_length) with
    | some s => .ok (dict_match_length, s)
    | none => .crash

/-- The byte-at-a-time self-referential copy loop
`for i in start..start+match_length { let b = sink.as_slice()[i]; sink.push(b); }`
(decompress_safe.rs lines 333-336, and the textually identical inline loop of
the fast path, lines 186-189). The second argument is the running index `i`,
the third the number of remaining iterations. -/
def copy_back_loop (s : Sink) (i : Nat) : Nat → Res Sink
  | 0 => .ok s
  | n + 1 =>
    match (s.as_slice)[i]? with
    | none => .crash
    | some b =>
      match s.push b with
      | some s' => copy_back_loop s' (i + 1) n
      | none => .crash

/-- duplicate_overlapping_slice (decompress_safe.rs lines 317-339). -/
def duplicate_overlapping_slice (sink : Sink) (offset match_length : Nat) : Res Sink :=
  if sink.pos < offset then .err .OffsetOutOfBounds
  else
    let start := sink.pos - offset
    if offset = 1 then
      match (sink.as_slice)[start]? with
      | none => .crash
      | some val =>
        match fillRange sink.output sink.pos match_length val with
        | some out => .ok ⟨out, sink.pos + match_length⟩
        | none => .crash
    else copy_back_loop sink start match_length

/-- The 16-byte-blocked copy loop of duplicate_slice
(`for i in (start..start+match_length).step_by(16)`, decompress_safe.rs lines
301-304). The loop runs `⌈match_length / 16⌉` iterations; the last argument
counts the remaining iterations and `i` starts at `start`, advancing by 16. -/
def chunk_copy (s : Sink) (i : Nat) : Nat → Option Sink
  | 0 => some s
  | n + 1 =>
    match copyWithin s.output i (i + 16) s.pos with
    | none => none
    | some out => chunk_copy ⟨out, s.pos + 16⟩ (i + 16) n

/-- duplicate_slice (decompress_safe.rs lines 286-313). -/
def duplicate_slice (output : Sink) (offset match_length : Nat) : Res Sink :=
  if offset < match_length then duplicate_overlapping_slice output offset match_length
  else
    if output.pos < offset then .err .OffsetOutOfBounds
    else
      let start := output.pos - offset
      let output_end := output.pos + match_length
      if output_end + 15 ≤ output.capacity then
        match chunk_copy output start ((match_length + 15) / 16) with
        | none => .crash
        | some s => .ok (s.set_pos output_end)
      else
        match copyWithin output.output start (start + match_length) output.pos with
        | none => .crash
        | some out => .ok ⟨out, output_end⟩

/-- Fast-path match copy (decompress_safe.rs lines 178-190): the
overflow-checked `start = pos - offset`, then the unconditional 18-byte
`copy_within` when `offset >= match_length` (advancing `pos` by
`match_length` only), otherwise the inline byte-at-a-time loop. -/
def fast_match (output : Sink) (offset match_length : Nat) : Res Sink :=
  if output.pos < offset then .err .OffsetOutOfBounds
  else
    let start := output.pos - offset
    if match_length ≤ offset then
      match copyWithin output.output start (start + 18) output.pos with
      | none => .crash
      | some out => .ok ⟨out, output.pos + match_length⟩
    else copy_back_loop output start match_length

/-- Slow-path literal section (decompress_safe.rs lines 198-218): optional
LSIC extension of the literal length, bounds check against the input, the
`checked-decode` capacity check, and the literal copy. Returns the updated
sink and cursor. -/
def slow_literal (CHECKED : Bool) (input : List UInt8) (output : Sink)
    (input_pos : Nat) (token : UInt8) : Res (Sink × Nat) :=
  let literal_length := (token >>> 4).toNat
  if literal_length ≠ 0 then
    match (if literal_length = 15 then
             match read_integer input input_pos with
             | .ok (n, p) => Res.ok (literal_length + n, p)
             | .err e => .err e
             | .crash => .crash
             | .outOfFuel => .outOfFuel
           else Res.ok (literal_length, input_pos)) with
    | .err e => .err e
    | .crash => .crash
    | .outOfFuel => .outOfFuel
    | .ok (literal_length, input_pos) =>
      if input.length < input_pos + literal_length then .err .LiteralOutOfBounds
      else if CHECKED ∧ output.capacity < output.pos + literal_length then
        .err (.OutputTooSmall (output.pos + literal_length) output.capacity)
      else
        match output.extend_from_slice (sliceOf input input_pos literal_length) with
        | some s => .ok (s, input_pos + literal_length)
        | none => .crash
  else .ok (output, input_pos)

/-- The decode loop of decompress_internal (decompress_safe.rs lines 111-262).
`USE_DICT` is the const generic; `CHECKED` models the `checked-decode` cfg
feature. On the `break` of line 223 the loop returns the sink together with
the final `input_pos`. Structural recursion on the fuel; every iteration
advances `input_pos` by at least one, so the `input.length + 1` fuel supplied
by `decompress_internal` cannot run out before the loop returns. The two
safe-distance thresholds (computed before the loop in the Rust, lines
120-125) are recomputed per iteration; they only depend on `input.length` and
`output.capacity`, both loop invariants. -/
def decompress_loop (USE_DICT CHECKED : Bool) (input ext_dict : List UInt8) :
    Nat → Sink → Nat → Res (Sink × Nat)
  | 0, _, _ => .outOfFuel
  | fuel + 1, output0, input_pos0 =>
    match input[input_pos0]? with
    | none => .err .ExpectedAnotherByte
    | some token =>
      let input_pos := input_pos0 + 1
      let safe_input_pos := input.length - 18
      let safe_output_pos := output0.capacity - 34
      if does_token_fit token ∧ input_pos ≤ safe_input_pos ∧ output0.pos < safe_output_pos then
        -- fast path (lines 145-193)
        let literal_length := (token >>> 4).toNat
        if input.length < input_pos + literal_length then .err .LiteralOutOfBounds
        else if output0.pos + 16 ≤ output0.capacity ∧ input_pos + 16 ≤ input.length then
          -- 16-byte literal copy, lines 155-158
          let output : Sink := ⟨setRange output0.output output0.pos (sliceOf input input_pos 16),
            output0.pos + literal_length⟩
          let input_pos := input_pos + literal_length
          match read_u16 input input_pos with
          | .err e => .err e
          | .crash => .crash
          | .outOfFuel => .outOfFuel
          | .ok offset =>
            let input_pos := input_pos + 2
            let match_length := MINMATCH + (token &&& 0xF).toNat
            if USE_DICT ∧ output.pos < offset then
              match copy_from_dict output ext_dict offset match_length with
              | .err e => .err e
              | .crash => .crash
              | .outOfFuel => .outOfFuel
              | .ok (copied, output) =>
                if copied = match_length then
                  decompress_loop USE_DICT CHECKED input ext_dict fuel output input_pos
                else
                  match fast_match output offset (match_length - copied) with
                  | .err e => .err e
                  | .crash => .crash
                  | .outOfFuel => .outOfFuel
                  | .ok output =>
                    decompress_loop USE_DICT CHECKED input ext_dict fuel output input_pos
            else
              match fast_match output offset match_length with
              | .err e => .err e
              | .crash => .crash
              | .outOfFuel => .outOfFuel
              | .ok output =>
                decompress_loop USE_DICT CHECKED input ext_dict fuel output input_pos
        else .crash
      else
        -- slow path (lines 195-259)
        match slow_literal CHECKED input output0 input_pos token with
        | .err e => .err e
        | .crash => .crash
        | .outOfFuel => .outOfFuel
        | .ok (output, input_pos) =>
          if input.length ≤ input_pos then .ok (output, input_pos)  -- break, lines 220-224
          else
            match read_u16 input input_pos with
            | .err e => .err e
            | .crash => .crash
            | .outOfFuel => .outOfFuel
            | .ok offset =>
              let input_pos := input_pos + 2
              let match_length := MINMATCH + (token &&& 0xF).toNat
              match (if match_length = MINMATCH + 15 then
                       match read_integer input input_pos with
                       | .ok (n, p) => Res.ok (match_length + n, p)
                       | .err e => .err e
                       | .crash => .crash
                       | .outOfFuel => .outOfFuel
                     else Res.ok (match_length, input_pos)) with
              | .err e => .err e
              | .crash => .crash
              | .outOfFuel => .outOfFuel
              | .ok (match_length, input_pos) =>
                if CHECKED ∧ output.capacity < output.pos + match_length then
                  .err (.OutputTooSmall (output.pos + match_length) output.capacity)
                else if USE_DICT ∧ output.pos < offset then
                  match copy_from_dict output ext_dict offset match_length with
                  | .err e => .err e
                  | .crash => .crash
                  | .outOfFuel => .outOfFuel
                  | .ok (copied, output) =>
                    if copied = match_length then
                      decompress_loop USE_DICT CHECKED input ext_dict fuel output input_pos
                    else
                      match duplicate_slice output offset (match_length - copied) with
                      | .err e => .err e
                      | .crash => .crash
                      | .outOfFuel => .outOfFuel
                      | .ok output =>
                        decompress_loop USE_DICT CHECKED input ext_dict fuel output input_pos
                else
                  match duplicate_slice output offset match_length with
                  | .err e => .err e
                  | .crash => .crash
                  | .outOfFuel => .outOfFuel
                  | .ok output =>
                    decompress_loop USE_DICT CHECKED input ext_dict fuel output input_pos

/-- decompress_internal (decompress_safe.rs lines 111-262): runs the decode
loop from cursor 0 and returns `output.pos() - initial_output_pos` together
with the final sink (the Rust mutates the sink in place). -/
def decompress_internal (USE_DICT CHECKED : Bool) (input : List UInt8) (output : Sink)
    (ext_dict : List UInt8) : Res (Nat × Sink) :=
  match decompress_loop USE_DICT CHECKED input ext_dict (input.length + 1) output 0 with
  | .ok (s, _) => .ok (s.pos - output.pos, s)
  | .err e => .err e
  | .crash => .crash
  | .outOfFuel => .outOfFuel

/-- decompress_into (decompress_safe.rs lines 91-93). -/
def decompress_into (CHECKED : Bool) (input : List UInt8) (output : Sink) :
    Res (Nat × Sink) :=
  decompress_internal false CHECKED input output []

/-- decompress_into_with_dict (decompress_safe.rs lines 99-105). -/
def decompress_into_with_dict (CHECKED : Bool) (input : List UInt8) (output : Sink)
    (ext_dict : List UInt8) : Res (Nat × Sink) :=
  decompress_internal true CHECKED input output ext_dict

/-! ### The logical (capacity-independent) decode semantics -/

/-- Append `n` bytes to `L`, each read at the running index `src` from the
buffer as extended so far: the LZ4 overlapping-match rule
`out[pos + k] = out[pos - offset + k]` realised byte by byte (each appended
byte observes the bytes appended before it). -/
def matchExtend (L : List UInt8) (src : Nat) : Nat → List UInt8
  | 0 => L
  | n + 1 => matchExtend (L ++ [L.getD src 0]) (src + 1) n

/-- Logical counterpart of the literal section (fast path lines 146-160, slow
path lines 198-218): the LSIC extension, the literal bounds check, and the
literal bytes appended to the written prefix. -/
def logical_literal (input L : List UInt8) (input_pos : Nat) (token : UInt8) :
    Res (List UInt8 × Nat) :=
  let literal_length := (token >>> 4).toNat
  match (if literal_length = 15 then
           match read_integer input input_pos with
           | .ok (n, p) => Res.ok (literal_length + n, p)
           | .err e => .err e
           | .crash => .crash
           | .outOfFuel => .outOfFuel
         else Res.ok (literal_length, input_pos)) with
  | .err e => .err e
  | .crash => .crash
  | .outOfFuel => .outOfFuel
  | .ok (literal_length, input_pos) =>
    if input.length < input_pos + literal_length then .err .LiteralOutOfBounds
    else .ok (L ++ sliceOf input input_pos literal_length, input_pos + literal_length)

/-- The capacity-independent logical semantics of the decode loop: the state
is the written prefix `L` and the input cursor. Every successful run of
`decompress_loop` refines this function (theorem `loop_refines_logical`),
whichever of the fast and slow paths its iterations take; it is the pivot for
proving that the decoded bytes do not depend on the sink capacity. -/
def decode_logical (USE_DICT : Bool) (input ext_dict : List UInt8) :
    Nat → List UInt8 → Nat → Res (List UInt8 × Nat)
  | 0, _, _ => .outOfFuel
  | fuel + 1, L0, input_pos0 =>
    match input[input_pos0]? with
    | none => .err .ExpectedAnotherByte
    | some token =>
      match logical_literal input L0 (input_pos0 + 1) token with
      | .err e => .err e
      | .crash => .crash
      | .outOfFuel => .outOfFuel
      | .ok (L, input_pos) =>
        if input.length ≤ input_pos then .ok (L, input_pos)
        else
          match read_u16 input input_pos with
          | .err e => .err e
          | .crash => .crash
          | .outOfFuel => .outOfFuel
          | .ok offset =>
            match (if MINMATCH + (token &&& 0xF).toNat = MINMATCH + 15 then
                     match read_integer input (input_pos + 2) with
                     | .ok (n, p) => Res.ok (MINMATCH + (token &&& 0xF).toNat + n, p)
                     | .err e => .err e
                     | .crash => .crash
                     | .outOfFuel => .outOfFuel
                   else Res.ok (MINMATCH + (token &&& 0xF).toNat, input_pos + 2)) with
            | .err e => .err e
            | .crash => .crash
            | .outOfFuel => .outOfFuel
            | .ok (match_length, input_pos3) =>
              if USE_DICT ∧ L.length < offset then
                if ext_dict.length < offset - L.length then .err .OffsetOutOfBounds
                else
                  let dict_offset := ext_dict.length - (offset - L.length)
                  let copied := min match_length (ext_dict.length - dict_offset)
                  let L1 := L ++ sliceOf ext_dict dict_offset copied
                  if copied = match_length then
                    decode_logical USE_DICT input ext_dict fuel L1 input_pos3
                  else
                    if L1.length < offset then .err .OffsetOutOfBounds
                    else
                      decode_logical USE_DICT input ext_dict fuel
                        (matchExtend L1 (L1.length - offset) (match_length - copied)) input_pos3
              else
                if L.length < offset then .err .OffsetOutOfBounds
                else
                  decode_logical USE_DICT input ext_dict fuel
                    (matchExtend L (L.length - offset) match_length) input_pos3

/-! ### Accessors and concrete inputs used in the statements -/

/-- Whether a decoder outcome is a success. -/
def Res.isOk {α : Type} : Res α → Bool
  | .ok _ => true
  | _ => false

/-- The sink of a successful copier call (a junk sink otherwise). -/
def Res.sinkOf : Res Sink → Sink
  | .ok s => s
  | _ => ⟨[], 0⟩

/-- The written count of a successful decode (`none` otherwise). -/
def Res.countOf : Res (Nat × Sink) → Option Nat
  | .ok (n, _) => some n
  | _ => none

/-- The cursor of a sink possibly produced by the blocked copy loop. -/
def chunkPos : Option Sink → Nat
  | some s => s.pos
  | none => 0

/-- A sink over a zero-filled buffer of capacity `c` with the cursor at 0. -/
def zeroSink (c : Nat) : Sink := ⟨List.replicate c 0, 0⟩

/-- Input whose first sequence has token `0xEE` (both nibbles 14), 14 literal
bytes, a 2-byte offset of 31, then a final literal-only sequence `0x10 0x62`:
19 bytes in total, so the fast-path gate holds at the first token when the
sink capacity is at least 35. -/
def fastDictInput : List UInt8 := [0xEE] ++ List.replicate 14 0x61 ++ [0x1F, 0x00, 0x10, 0x62]

/-- A 17-byte dictionary for `fastDictInput`: the partial dictionary splice
advances the cursor by 17 before the unconditional 18-byte match copy. -/
def fastDictDict : List UInt8 := List.replicate 17 0x7A

/-- A valid block: two literals `a a`, an overlapping match of length 4 at
offset 1, then the terminating zero token. -/
def truncBlock : List UInt8 := [0x20, 0x61, 0x61, 0x01, 0x00, 0x00]

/-- LSIC bytes whose true sum `255 * 16843010 = 4294967550` exceeds
`2 ^ 32 - 1`; terminated by `0x00`. -/
def overflowInput : List UInt8 := List.replicate 16843010 0xFF ++ [0x00]

/-- LSIC bytes with true sum `255 * 16843010 + 1`; terminated by `0x01`. -/
def overflowInputB : List UInt8 := List.replicate 16843010 0xFF ++ [0x01]

/-! ### Lemmas about the buffer primitives -/

theorem setRange_length {l xs : List UInt8} {i : Nat} (h : i + xs.length ≤ l.length) :
    (setRange l i xs).length = l.length := by
  simp only [setRange, List.length_append, List.length_take, List.length_drop]
  omega

theorem getElem?_setRange {l xs : List UInt8} {i : Nat} (h : i + xs.length ≤ l.length) (j : Nat) :
    (setRange l i xs)[j]? =
      if j < i then l[j]?
      else if j < i + xs.length then xs[j - i]?
      else l[j]? := by
  unfold setRange
  have hti : (l.take i).length = i := by simp; omega
  rw [List.getElem?_append, List.getElem?_append]
  rw [List.length_append, hti]
  simp only [List.getElem?_take, List.getElem?_drop]
  by_cases h1 : j < i
  · rw [if_pos (by omega), if_pos h1, if_pos h1, if_pos h1]
  · by_cases h2 : j < i + xs.length
    · rw [if_pos (by omega), if_neg h1, if_pos h2, if_neg h1]
    · rw [if_neg (by omega), if_neg h1, if_neg h2]
      congr 1
      omega

theorem take_setRange_add {l xs : List UInt8} {i m : Nat} (h : i + xs.length ≤ l.length)
    (hm : m ≤ xs.length) :
    (setRange l i xs).take (i + m) = l.take i ++ xs.take m := by
  apply List.ext_getElem?
  intro n
  rw [List.getElem?_take, List.getElem?_append]
  have hti : (l.take i).length = i := by simp; omega
  rw [hti]
  simp only [List.getElem?_take]
  by_cases h1 : n < i
  · rw [if_pos (by omega), getElem?_setRange h, if_pos h1, if_pos h1, if_pos h1]
  · by_cases h2 : n < i + m
    · rw [if_pos h2, getElem?_setRange h, if_neg h1, if_pos (by omega), if_neg h1,
        if_pos (by omega)]
    · rw [if_neg h2, if_neg h1, if_neg (by omega)]

theorem take_setRange_of_le {l xs : List UInt8} {i k : Nat} (h : i + xs.length ≤ l.length)
    (hk : k ≤ i) : (setRange l i xs).take k = l.take k := by
  apply List.ext_getElem?
  intro n
  rw [List.getElem?_take, List.getElem?_take]
  by_cases h1 : n < k
  · rw [if_pos h1, if_pos h1, getElem?_setRange h, if_pos (by omega)]
  · rw [if_neg h1, if_neg h1]

theorem sliceOf_length {l : List UInt8} {start len : Nat} (h : start + len ≤ l.length) :
    (sliceOf l start len).length = len := by
  simp only [sliceOf, List.length_take, List.length_drop]
  omega

theorem getElem?_sliceOf {l : List UInt8} {start len : Nat} (j : Nat) :
    (sliceOf l start len)[j]? = if j < len then l[start + j]? else none := by
  simp only [sliceOf, List.getElem?_take, List.getElem?_drop]

theorem sliceOf_take {l : List UInt8} {start len k : Nat} :
    (sliceOf l start len).take k = sliceOf l start (min k len) := by
  simp [sliceOf, List.take_take]

theorem sliceOf_of_take {l : List UInt8} {p start len : Nat} (h : start + len ≤ p) :
    sliceOf (l.take p) start len = sliceOf l start len := by
  apply List.ext_getElem?
  intro n
  rw [getElem?_sliceOf, getElem?_sliceOf]
  by_cases h1 : n < len
  · rw [if_pos h1, if_pos h1, List.getElem?_take, if_pos (by omega)]
  · rw [if_neg h1, if_neg h1]

theorem sliceOf_zero {l : List UInt8} {start : Nat} : sliceOf l start 0 = [] := by
  simp [sliceOf]

/-- Length of `as_slice` is exactly `pos` when the cursor is within capacity. -/
theorem as_slice_length {s : Sink} (h : s.pos ≤ s.capacity) : s.as_slice.length = s.pos := by
  simp only [Sink.as_slice, List.length_take, Sink.capacity] at *
  omega

theorem getElem?_as_slice_of_lt {s : Sink} {i : Nat} (h : i < s.pos) :
    s.as_slice[i]? = s.output[i]? := by
  rw [Sink.as_slice, List.getElem?_take, if_pos h]

/-- Effect of a successful `push`. -/
theorem push_spec {s : Sink} {b : UInt8} {s' : Sink} (h : s.push b = some s') :
    s.pos < s.capacity ∧ s'.pos = s.pos + 1 ∧ s'.capacity = s.capacity ∧
    s'.output = setRange s.output s.pos [b] := by
  unfold Sink.push at h
  split at h
  · cases h
    refine ⟨by assumption, rfl, ?_, rfl⟩
    show (setRange s.output s.pos [b]).length = _
    rw [setRange_length]
    · rfl
    · simp only [List.length_cons, List.length_nil, Sink.capacity] at *
      omega
  · cases h

/-- `as_slice` of a successful `push` appends the byte. -/
theorem push_as_slice {s : Sink} {b : UInt8} {s' : Sink} (h : s.push b = some s') :
    s'.as_slice = s.as_slice ++ [b] := by
  obtain ⟨h1, h2, _, h4⟩ := push_spec h
  show s'.output.take s'.pos = _
  rw [h4, h2]
  have : s.pos + 1 = s.pos + [b].length := by simp
  rw [this, take_setRange_add (by simpa using h1) (le_refl _)]
  simp [Sink.as_slice]

/-- Effect of a successful `extend_from_slice`. -/
theorem extend_spec {s : Sink} {data : List UInt8} {s' : Sink}
    (h : s.extend_from_slice data = some s') :
    s.pos + data.length ≤ s.capacity ∧ s'.pos = s.pos + data.length ∧
    s'.capacity = s.capacity ∧ s'.output = setRange s.output s.pos data := by
  unfold Sink.extend_from_slice at h
  split at h
  · cases h
    refine ⟨by assumption, rfl, ?_, rfl⟩
    show (setRange s.output s.pos data).length = _
    rw [setRange_length] <;> simp only [Sink.capacity] at *
    omega
  · cases h

theorem extend_as_slice {s : Sink} {data : List UInt8} {s' : Sink}
    (h : s.extend_from_slice data = some s') :
    s'.as_slice = s.as_slice ++ data := by
  obtain ⟨h1, h2, _, h4⟩ := extend_spec h
  show s'.output.take s'.pos = _
  rw [h4, h2, take_setRange_add (by exact h1) (le_refl _)]
  simp [Sink.as_slice]

/-- Effect of a successful `copyWithin`. -/
theorem copyWithin_spec {l : List UInt8} {start stop dest : Nat} {out : List UInt8}
    (h : copyWithin l start stop dest = some out) :
    start ≤ stop ∧ stop ≤ l.length ∧ dest + (stop - start) ≤ l.length ∧
    out = setRange l dest (sliceOf l start (stop - start)) := by
  unfold copyWithin at h
  split at h
  · cases h
    exact ⟨by tauto, by tauto, by tauto, rfl⟩
  · cases h

/-- Effect of a successful `fillRange`. -/
theorem fillRange_spec {l : List UInt8} {dest len : Nat} {v : UInt8} {out : List UInt8}
    (h : fillRange l dest len v = some out) :
    dest + len ≤ l.length ∧ out = setRange l dest (List.replicate len v) := by
  unfold fillRange at h
  split at h
  · cases h
    exact ⟨by assumption, rfl⟩
  · cases h


/-! ### The abstract self-referential match semantics -/

theorem matchExtend_length (n : Nat) : ∀ (L : List UInt8) (src : Nat),
    (matchExtend L src n).length = L.length + n := by
  induction n with
  | zero => intro L src; rfl
  | succ n ih =>
    intro L src
    rw [matchExtend, ih]
    simp only [List.length_append, List.length_cons, List.length_nil]
    omega

theorem matchExtend_prefix (n : Nat) : ∀ (L : List UInt8) (src j : Nat), j < L.length →
    (matchExtend L src n)[j]? = L[j]? := by
  induction n with
  | zero => intro L src j _; rfl
  | succ n ih =>
    intro L src j hj
    rw [matchExtend, ih _ _ _ (by simp; omega), List.getElem?_append, if_pos hj]

theorem getD_append_of_lt {L l2 : List UInt8} {k : Nat} (h : k < L.length) (d : UInt8) :
    (L ++ l2).getD k d = L.getD k d := by
  rw [List.getD_eq_getElem?_getD, List.getD_eq_getElem?_getD, List.getElem?_append, if_pos h]

theorem getD_append_singleton_len {L : List UInt8} {b d : UInt8} :
    (L ++ [b]).getD L.length d = b := by
  rw [List.getD_eq_getElem?_getD, List.getElem?_append, if_neg (by omega)]
  simp

theorem succ_mod_cases {j offset : Nat} (h : 1 ≤ offset) :
    (j + 1) % offset = if j % offset + 1 = offset then 0 else j % offset + 1 := by
  have hd := Nat.div_add_mod j offset
  have hr : j % offset < offset := Nat.mod_lt _ (by omega)
  by_cases hc : j % offset + 1 = offset
  · rw [if_pos hc]
    have he : j + 1 = offset * (j / offset + 1) := by
      rw [Nat.mul_succ]
      omega
    rw [he, Nat.mul_mod_right]
  · rw [if_neg hc]
    have he : j + 1 = (j % offset + 1) + offset * (j / offset) := by omega
    rw [he, Nat.add_mul_mod_self_left, Nat.mod_eq_of_lt (by omega)]

theorem matchExtend_pattern (n : Nat) : ∀ (L : List UInt8) (offset : Nat),
    1 ≤ offset → offset ≤ L.length →
    matchExtend L (L.length - offset) n =
      L ++ (List.range n).map (fun j => L.getD (L.length - offset + j % offset) 0) := by
  induction n with
  | zero => intro L offset h1 h2; simp [matchExtend]
  | succ n ih =>
    intro L offset h1 h2
    rw [matchExtend]
    have hlen : (L ++ [L.getD (L.length - offset) 0]).length = L.length + 1 := by simp
    have harg : L.length - offset + 1 = (L ++ [L.getD (L.length - offset) 0]).length - offset := by
      rw [hlen]; omega
    rw [harg, ih (L ++ [L.getD (L.length - offset) 0]) offset h1 (by rw [hlen]; omega)]
    rw [List.range_succ_eq_map, List.map_cons, List.map_map]
    have hz : L.getD (L.length - offset + 0 % offset) 0 = L.getD (L.length - offset) 0 := by
      rw [Nat.zero_mod, Nat.add_zero]
    rw [hz, ← List.append_cons]
    congr 2
    apply List.map_congr_left
    intro j _
    show (L ++ [L.getD (L.length - offset) 0]).getD
        ((L ++ [L.getD (L.length - offset) 0]).length - offset + j % offset) 0 =
      L.getD (L.length - offset + (j + 1) % offset) 0
    rw [hlen, succ_mod_cases h1]
    have hr : j % offset < offset := Nat.mod_lt _ (by omega)
    by_cases hc : j % offset + 1 = offset
    · rw [if_pos hc]
      have hidx : L.length + 1 - offset + j % offset = L.length := by omega
      rw [hidx, Nat.add_zero, getD_append_singleton_len]
    · rw [if_neg hc]
      have hidx : L.length + 1 - offset + j % offset = L.length - offset + (j % offset + 1) := by
        omega
      rw [hidx, getD_append_of_lt (by omega)]

theorem matchExtend_getElem {n : Nat} {L : List UInt8} {offset i : Nat}
    (h1 : 1 ≤ offset) (h2 : offset ≤ L.length) (hi : i < n) :
    (matchExtend L (L.length - offset) n)[L.length + i]? =
      some (L.getD (L.length - offset + i % offset) 0) := by
  rw [matchExtend_pattern n L offset h1 h2, List.getElem?_append, if_neg (by omega)]
  have hidx : L.length + i - L.length = i := by omega
  rw [hidx, List.getElem?_map, List.getElem?_range hi]
  rfl

theorem range_map_getD_eq_sliceOf {L : List UInt8} {src n : Nat} (h : src + n ≤ L.length) :
    (List.range n).map (fun j => L.getD (src + j) 0) = sliceOf L src n := by
  apply List.ext_getElem?
  intro k
  rw [List.getElem?_map, getElem?_sliceOf]
  by_cases hk : k < n
  · rw [List.getElem?_range hk, if_pos hk]
    simp [List.getD_eq_getElem?_getD, List.getElem?_eq_getElem (show src + k < L.length by omega)]
  · rw [List.getElem?_eq_none (by rw [List.length_range]; omega), if_neg hk]
    rfl

theorem matchExtend_of_le {n : Nat} {L : List UInt8} {offset : Nat} (h1 : 1 ≤ offset)
    (h2 : offset ≤ L.length) (hn : n ≤ offset) :
    matchExtend L (L.length - offset) n = L ++ sliceOf L (L.length - offset) n := by
  rw [matchExtend_pattern n L offset h1 h2]
  congr 1
  rw [← range_map_getD_eq_sliceOf (by omega)]
  apply List.map_congr_left
  intro j hj
  rw [List.mem_range] at hj
  rw [Nat.mod_eq_of_lt (by omega)]

theorem matchExtend_offset_one {n : Nat} {L : List UInt8} (h : 1 ≤ L.length) :
    matchExtend L (L.length - 1) n = L ++ List.replicate n (L.getD (L.length - 1) 0) := by
  rw [matchExtend_pattern n L 1 (by omega) h]
  congr 1
  apply List.ext_getElem?
  intro k
  rw [List.getElem?_map, List.getElem?_replicate]
  by_cases hk : k < n
  · rw [List.getElem?_range hk, if_pos hk]
    simp [Nat.mod_one]
  · rw [List.getElem?_eq_none (by rw [List.length_range]; omega), if_neg hk]
    rfl


/-! ### Specifications of the copy loops -/

theorem copy_back_loop_ok_spec (n : Nat) : ∀ (s : Sink) (i : Nat) (s' : Sink),
    copy_back_loop s i n = .ok s' → s.pos ≤ s.capacity →
    s'.pos = s.pos + n ∧ s'.capacity = s.capacity ∧ s'.pos ≤ s'.capacity ∧
    s'.as_slice = matchExtend s.as_slice i n := by
  induction n with
  | zero =>
    intro s i s' h hcap
    simp only [copy_back_loop, Res.ok.injEq] at h
    subst h
    exact ⟨rfl, rfl, hcap, rfl⟩
  | succ n ih =>
    intro s i s' h hcap
    rw [copy_back_loop] at h
    split at h
    · exact Res.noConfusion h
    · rename_i b hb
      split at h
      · rename_i s1 hp
        have hi : i < s.pos := by
          obtain ⟨hlt, _⟩ := List.getElem?_eq_some_iff.mp hb
          have hl := as_slice_length hcap
          omega
        obtain ⟨hplt, hp1, hc1, _⟩ := push_spec hp
        obtain ⟨e1, e2, e3, e4⟩ := ih s1 (i + 1) s' h (by omega)
        have hbd : s.as_slice.getD i 0 = b := by
          rw [List.getD_eq_getElem?_getD, hb]
          rfl
        refine ⟨by omega, by omega, e3, ?_⟩
        rw [e4, matchExtend, hbd, push_as_slice hp]
      · exact Res.noConfusion h

theorem copy_back_loop_mono (n : Nat) : ∀ (s : Sink) (i : Nat) (s' : Sink),
    copy_back_loop s i n = .ok s' → s.pos ≤ s'.pos := by
  induction n with
  | zero =>
    intro s i s' h
    simp only [copy_back_loop, Res.ok.injEq] at h
    subst h
    exact le_refl _
  | succ n ih =>
    intro s i s' h
    rw [copy_back_loop] at h
    split at h
    · exact Res.noConfusion h
    · rename_i b hb
      split at h
      · rename_i s1 hp
        obtain ⟨_, hp1, _, _⟩ := push_spec hp
        have := ih s1 (i + 1) s' h
        omega
      · exact Res.noConfusion h

theorem copy_back_loop_success (n : Nat) : ∀ (s : Sink) (i : Nat), i < s.pos →
    s.pos + n ≤ s.capacity → ∃ s', copy_back_loop s i n = .ok s' := by
  induction n with
  | zero => intro s i _ _; exact ⟨s, rfl⟩
  | succ n ih =>
    intro s i hi hn
    have hlt : i < s.as_slice.length := by
      rw [as_slice_length (by omega)]
      exact hi
    have hpc : s.pos < s.capacity := by omega
    have hpush : s.push (s.as_slice[i]) = some ⟨setRange s.output s.pos [s.as_slice[i]], s.pos + 1⟩ := by
      rw [Sink.push, if_pos hpc]
    obtain ⟨s2, hs2⟩ := ih ⟨setRange s.output s.pos [s.as_slice[i]], s.pos + 1⟩ (i + 1)
      (by show i + 1 < s.pos + 1; omega)
      (by show s.pos + 1 + n ≤ (setRange s.output s.pos [s.as_slice[i]]).length
          rw [setRange_length (by simp only [List.length_cons, List.length_nil]; exact hpc)]
          have hc : s.capacity = s.output.length := rfl
          omega)
    refine ⟨s2, ?_⟩
    rw [copy_back_loop, List.getElem?_eq_getElem hlt]
    show (match s.push s.as_slice[i] with
      | some s1 => copy_back_loop s1 (i + 1) n
      | none => Res.crash) = Res.ok s2
    rw [hpush]
    exact hs2

/-- The first read of the byte loop is out of bounds when it starts at the
cursor itself (`i = pos`): `as_slice` has length at most `pos`. -/
theorem copy_back_loop_at_pos_crash (s : Sink) (k : Nat) :
    copy_back_loop s s.pos (k + 1) = .crash := by
  rw [copy_back_loop]
  have : (s.as_slice)[s.pos]? = none := by
    apply List.getElem?_eq_none
    rw [Sink.as_slice, List.length_take]
    omega
  rw [this]

theorem chunk_copy_spec (chunks : Nat) : ∀ (s : Sink) (i : Nat) (s' : Sink),
    chunk_copy s i chunks = some s' → i ≤ s.pos →
    s'.pos = s.pos + 16 * chunks ∧ s'.capacity = s.capacity ∧
    (∀ j, j < s.pos → s'.output[j]? = s.output[j]?) ∧
    (∀ t, t < s.pos - i → t < 16 * chunks → s'.output[s.pos + t]? = s.output[i + t]?) := by
  induction chunks with
  | zero =>
    intro s i s' h _
    simp only [chunk_copy, Option.some.injEq] at h
    subst h
    exact ⟨by omega, rfl, fun _ _ => rfl, fun t _ ht => by omega⟩
  | succ n ih =>
    intro s i s' h hi
    rw [chunk_copy] at h
    split at h
    · exact Option.noConfusion h
    · rename_i out hcw
      obtain ⟨_, hstop, hdest, hout⟩ := copyWithin_spec hcw
      have hlen16 : (sliceOf s.output i (i + 16 - i)).length = 16 := by
        rw [sliceOf_length (by omega)]
        omega
      have hset : i + 16 - i = 16 := by omega
      have hbound : s.pos + (sliceOf s.output i 16).length ≤ s.output.length := by
        rw [hset] at hlen16
        rw [hlen16]
        omega
      rw [hset] at hout hlen16
      have houtlen : out.length = s.output.length := by
        rw [hout, setRange_length hbound]
      obtain ⟨e1, e2, e3, e4⟩ := ih ⟨out, s.pos + 16⟩ (i + 16) s' h (by dsimp only; omega)
      simp only [Sink.capacity] at e2
      dsimp only at e1 e2 e3 e4
      refine ⟨by omega, ?_, ?_, ?_⟩
      · show s'.output.length = s.output.length
        rw [e2, houtlen]
      · intro j hj
        rw [e3 j (by omega), hout, getElem?_setRange hbound, if_pos hj]
      · intro t ht1 ht2
        by_cases hl : t < 16
        · have := e3 (s.pos + t) (by omega)
          rw [this, hout, getElem?_setRange hbound]
          rw [if_neg (by omega), if_pos (by rw [hlen16]; omega)]
          have hidx : s.pos + t - s.pos = t := by omega
          rw [hidx, getElem?_sliceOf, if_pos hl]
        · have ht' : t - 16 < (s.pos + 16) - (i + 16) := by omega
          have ht2' : t - 16 < 16 * n := by omega
          have := e4 (t - 16) ht' ht2'
          have hidx1 : s.pos + 16 + (t - 16) = s.pos + t := by omega
          have hidx2 : i + 16 + (t - 16) = i + t := by omega
          rw [hidx1, hidx2] at this
          rw [this, hout, getElem?_setRange hbound, if_pos (by omega)]


/-! ### Effect of the match copiers on the written prefix -/

theorem append_sliceOf_eq_matchExtend {out : List UInt8} {pos offset ml : Nat}
    (hpos : pos ≤ out.length) (hof : offset ≤ pos) (hml : ml ≤ offset) :
    out.take pos ++ sliceOf out (pos - offset) ml =
      matchExtend (out.take pos) (pos - offset) ml := by
  by_cases h0 : ml = 0
  · subst h0
    simp [matchExtend, sliceOf]
  · have h1 : 1 ≤ offset := by omega
    have hLlen : (out.take pos).length = pos := by simp; omega
    have heq : pos - offset = (out.take pos).length - offset := by omega
    rw [heq, matchExtend_of_le h1 (by omega) hml]
    congr 1
    rw [sliceOf_of_take (show (out.take pos).length - offset + ml ≤ pos by omega)]

theorem duplicate_overlapping_slice_ok_spec {s : Sink} {offset ml : Nat} {s' : Sink}
    (h : duplicate_overlapping_slice s offset ml = .ok s') (hcap : s.pos ≤ s.capacity) :
    offset ≤ s.pos ∧ s'.pos = s.pos + ml ∧ s'.capacity = s.capacity ∧ s'.pos ≤ s'.capacity ∧
    s'.as_slice = matchExtend s.as_slice (s.pos - offset) ml := by
  simp only [duplicate_overlapping_slice] at h
  split at h
  · exact Res.noConfusion h
  · rename_i hof
    split at h
    · rename_i h1
      split at h
      · exact Res.noConfusion h
      · rename_i val hv
        split at h
        · rename_i out hf
          injection h with h
          subst h
          obtain ⟨hb, hout⟩ := fillRange_spec hf
          subst hout
          have hrl : (List.replicate ml val).length = ml := List.length_replicate ml val
          have hbound : s.pos + (List.replicate ml val).length ≤ s.output.length := by
            rw [hrl]; exact hb
          have hcapc : (setRange s.output s.pos (List.replicate ml val)).length
              = s.output.length := setRange_length hbound
          refine ⟨by omega, rfl, hcapc, by simp only [Sink.capacity]; omega, ?_⟩
          show (setRange s.output s.pos (List.replicate ml val)).take (s.pos + ml) = _
          have hm : s.pos + ml = s.pos + (List.replicate ml val).length := by rw [hrl]
          rw [hm, take_setRange_add hbound (le_refl _), List.take_length]
          subst h1
          have hps : 1 ≤ s.pos := by omega
          have hlen : (s.as_slice).length = s.pos := as_slice_length hcap
          have hval : (s.as_slice).getD (s.as_slice.length - 1) 0 = val := by
            rw [hlen, List.getD_eq_getElem?_getD, hv]
            rfl
          rw [show s.pos - 1 = s.as_slice.length - 1 by omega,
            matchExtend_offset_one (by omega), hval]
          rfl
        · exact Res.noConfusion h
    · rename_i h1
      obtain ⟨e1, e2, e3, e4⟩ := copy_back_loop_ok_spec ml s (s.pos - offset) s' h hcap
      exact ⟨by omega, e1, e2, e3, e4⟩

theorem fast_match_ok_spec {s : Sink} {offset ml : Nat} {s' : Sink}
    (h : fast_match s offset ml = .ok s') (hcap : s.pos ≤ s.capacity) (h18 : ml ≤ 18) :
    offset ≤ s.pos ∧ s'.pos = s.pos + ml ∧ s'.capacity = s.capacity ∧ s'.pos ≤ s'.capacity ∧
    s'.as_slice = matchExtend s.as_slice (s.pos - offset) ml := by
  simp only [fast_match] at h
  split at h
  · exact Res.noConfusion h
  · rename_i hop
    split at h
    · rename_i hml
      split at h
      · exact Res.noConfusion h
      · rename_i out hcw
        injection h with h
        subst h
        obtain ⟨_, hstop, hdest, hout⟩ := copyWithin_spec hcw
        have hs18 : s.pos - offset + 18 - (s.pos - offset) = 18 := by omega
        rw [hs18] at hdest hout
        have hsl : (sliceOf s.output (s.pos - offset) 18).length = 18 :=
          sliceOf_length (by omega)
        have hbound : s.pos + (sliceOf s.output (s.pos - offset) 18).length
            ≤ s.output.length := by rw [hsl]; omega
        subst hout
        have hcapc : (setRange s.output s.pos (sliceOf s.output (s.pos - offset) 18)).length
            = s.output.length := setRange_length hbound
        refine ⟨by omega, rfl, hcapc, by simp only [Sink.capacity]; omega, ?_⟩
        show (setRange s.output s.pos (sliceOf s.output (s.pos - offset) 18)).take (s.pos + ml)
            = _
        rw [show s.pos + ml = s.pos + ml from rfl,
          take_setRange_add hbound (by rw [hsl]; exact h18)]
        rw [sliceOf_take, min_eq_left h18]
        exact append_sliceOf_eq_matchExtend (by omega) (by omega) hml
    · obtain ⟨e1, e2, e3, e4⟩ := copy_back_loop_ok_spec ml s (s.pos - offset) s' h hcap
      exact ⟨by omega, e1, e2, e3, e4⟩

theorem duplicate_slice_ok_spec {s : Sink} {offset ml : Nat} {s' : Sink}
    (h : duplicate_slice s offset ml = .ok s') (hcap : s.pos ≤ s.capacity) :
    offset ≤ s.pos ∧ s'.pos = s.pos + ml ∧ s'.capacity = s.capacity ∧ s'.pos ≤ s'.capacity ∧
    s'.as_slice = matchExtend s.as_slice (s.pos - offset) ml := by
  simp only [duplicate_slice] at h
  split at h
  · exact duplicate_overlapping_slice_ok_spec h hcap
  · rename_i hov
    split at h
    · exact Res.noConfusion h
    · rename_i hop
      have hml : ml ≤ offset := by omega
      split at h
      · rename_i hch
        split at h
        · exact Res.noConfusion h
        · rename_i s1 hcc
          injection h with h
          subst h
          obtain ⟨e1, e2, e3, e4⟩ := chunk_copy_spec _ s (s.pos - offset) s1 hcc (by omega)
          have hcap2 : s.capacity = s.output.length := rfl
          have hchunk : ml ≤ 16 * ((ml + 15) / 16) := by omega
          refine ⟨by omega, rfl, ?_, ?_, ?_⟩
          · show s1.capacity = s.capacity
            exact e2
          · show s.pos + ml ≤ s1.capacity
            rw [e2]
            omega
          · show s1.output.take (s.pos + ml) = _
            have hstep : s1.output.take (s.pos + ml)
                = s.output.take s.pos ++ sliceOf s.output (s.pos - offset) ml := by
              apply List.ext_getElem?
              intro j
              rw [List.getElem?_take, List.getElem?_append]
              have htl : (s.output.take s.pos).length = s.pos := by simp; omega
              rw [htl]
              have hsl : (sliceOf s.output (s.pos - offset) ml).length = ml :=
                sliceOf_length (by omega)
              by_cases hj1 : j < s.pos
              · rw [if_pos (by omega), if_pos hj1, e3 j hj1, List.getElem?_take, if_pos hj1]
              · by_cases hj2 : j < s.pos + ml
                · rw [if_pos hj2, if_neg hj1, getElem?_sliceOf, if_pos (by omega)]
                  have h4 := e4 (j - s.pos) (by omega) (by omega)
                  rw [show s.pos + (j - s.pos) = j by omega] at h4
                  rw [h4]
                · rw [if_neg hj2, if_neg hj1, getElem?_sliceOf, if_neg (by omega)]
            rw [hstep]
            exact append_sliceOf_eq_matchExtend (by omega) (by omega) hml
      · rename_i hch
        split at h
        · exact Res.noConfusion h
        · rename_i out hcw
          injection h with h
          subst h
          obtain ⟨_, hstop, hdest, hout⟩ := copyWithin_spec hcw
          have hsml : s.pos - offset + ml - (s.pos - offset) = ml := by omega
          rw [hsml] at hdest hout
          have hsl : (sliceOf s.output (s.pos - offset) ml).length = ml :=
            sliceOf_length (by omega)
          have hbound : s.pos + (sliceOf s.output (s.pos - offset) ml).length
              ≤ s.output.length := by rw [hsl]; omega
          subst hout
          have hcapc : (setRange s.output s.pos (sliceOf s.output (s.pos - offset) ml)).length
              = s.output.length := setRange_length hbound
          refine ⟨by omega, rfl, hcapc, by simp only [Sink.capacity]; omega, ?_⟩
          show (setRange s.output s.pos (sliceOf s.output (s.pos - offset) ml)).take (s.pos + ml)
              = _
          have hm : s.pos + ml = s.pos + (sliceOf s.output (s.pos - offset) ml).length := by
            rw [hsl]
          rw [hm, take_setRange_add hbound (le_refl _), List.take_length]
          exact append_sliceOf_eq_matchExtend (by omega) (by omega) hml

theorem copy_from_dict_ok_spec {s : Sink} {dict : List UInt8} {offset ml copied : Nat}
    {s' : Sink} (h : copy_from_dict s dict offset ml = .ok (copied, s')) :
    offset - s.pos ≤ dict.length ∧
    copied = min ml (dict.length - (dict.length - (offset - s.pos))) ∧
    s'.pos = s.pos + copied ∧ s'.capacity = s.capacity ∧ s'.pos ≤ s'.capacity ∧
    s'.as_slice = s.as_slice ++ sliceOf dict (dict.length - (offset - s.pos)) copied := by
  simp only [copy_from_dict] at h
  split at h
  · exact Res.noConfusion h
  · rename_i hnb
    split at h
    · rename_i s1 hext
      injection h with h
      injection h with hA hB
      subst hA
      subst hB
      obtain ⟨he1, he2, he3, he4⟩ := extend_spec hext
      have hsl : (sliceOf dict (dict.length - (offset - s.pos))
          (min ml (dict.length - (dict.length - (offset - s.pos))))).length
          = min ml (dict.length - (dict.length - (offset - s.pos))) :=
        sliceOf_length (by omega)
      rw [hsl] at he1 he2
      exact ⟨by omega, rfl, he2, he3, by omega, extend_as_slice hext⟩
    · exact Res.noConfusion h


/-! ### read_integer characterization -/

theorem read_integer_go_bounds (l : List UInt8) : ∀ (pos acc n p : Nat),
    read_integer_go l pos acc = .ok (n, p) → pos < p ∧ p ≤ pos + l.length := by
  induction l with
  | nil => intro pos acc n p h; exact Res.noConfusion h
  | cons b rest ih =>
    intro pos acc n p h
    simp only [read_integer_go] at h
    split at h
    · injection h with h
      injection h with h1 h2
      subst h2
      simp only [List.length_cons]
      omega
    · obtain ⟨h1, h2⟩ := ih (pos + 1) _ n p h
      simp only [List.length_cons]
      omega

theorem read_integer_bounds {input : List UInt8} {pos n p : Nat}
    (h : read_integer input pos = .ok (n, p)) : pos < p ∧ p ≤ input.length := by
  rw [read_integer] at h
  obtain ⟨h1, h2⟩ := read_integer_go_bounds _ pos 0 n p h
  by_cases hp : pos ≤ input.length
  · have hd : (input.drop pos).length = input.length - pos := by simp
    omega
  · exfalso
    rw [List.drop_eq_nil_of_le (by omega)] at h
    exact Res.noConfusion h

theorem read_integer_go_replicate (k : Nat) : ∀ (pos acc : Nat) (b : UInt8)
    (rest : List UInt8), b ≠ 0xFF →
    read_integer_go (List.replicate k 0xFF ++ b :: rest) pos acc =
      .ok ((acc + 255 * k + b.toNat) % U32_MOD, pos + k + 1) := by
  induction k with
  | zero =>
    intro pos acc b rest hb
    simp only [List.replicate, List.nil_append, read_integer_go]
    rw [if_pos hb]
    norm_num
  | succ k ih =>
    intro pos acc b rest hb
    rw [List.replicate_succ, List.cons_append, read_integer_go]
    rw [if_neg (by simp)]
    rw [ih (pos + 1) ((acc + (0xFF : UInt8).toNat) % U32_MOD) b rest hb]
    have h255 : (0xFF : UInt8).toNat = 255 := rfl
    rw [h255]
    congr 2
    · simp only [U32_MOD]
      omega
    · omega

theorem read_integer_spec_found {input : List UInt8} {pos k : Nat} {b : UInt8}
    (hff : ∀ i, i < k → input[pos + i]? = some 0xFF)
    (hb : input[pos + k]? = some b) (hbne : b ≠ 0xFF) :
    read_integer input pos = .ok ((255 * k + b.toNat) % U32_MOD, pos + k + 1) := by
  have hlt : pos + k < input.length := (List.getElem?_eq_some_iff.mp hb).1
  have hdecomp : input.drop pos
      = List.replicate k 0xFF ++ b :: input.drop (pos + k + 1) := by
    apply List.ext_getElem?
    intro j
    rw [List.getElem?_drop, List.getElem?_append, List.length_replicate]
    by_cases hj : j < k
    · rw [if_pos hj, List.getElem?_replicate, if_pos hj]
      exact hff j hj
    · rw [if_neg hj]
      by_cases hjk : j = k
      · rw [show j - k = 0 by omega, List.getElem?_cons_zero, hjk]
        exact hb
      · obtain ⟨m, hm⟩ : ∃ m, j - k = m + 1 := ⟨j - k - 1, by omega⟩
        rw [hm, List.getElem?_cons_succ, List.getElem?_drop]
        congr 1
        omega
  rw [read_integer, hdecomp, read_integer_go_replicate k pos 0 b _ hbne]
  norm_num

theorem read_integer_go_all_ff (l : List UInt8) : ∀ (pos acc : Nat),
    (∀ x ∈ l, x = 0xFF) →
    read_integer_go l pos acc = .err .ExpectedAnotherByte := by
  induction l with
  | nil => intro pos acc _; rfl
  | cons b rest ih =>
    intro pos acc hall
    rw [read_integer_go]
    have hb : b = 0xFF := hall b (by simp)
    rw [if_neg (by simp [hb])]
    exact ih (pos + 1) _ (fun x hx => hall x (by simp [hx]))

theorem read_integer_spec_exhausted {input : List UInt8} {pos : Nat}
    (hff : ∀ i, pos + i < input.length → input[pos + i]? = some 0xFF) :
    read_integer input pos = .err .ExpectedAnotherByte := by
  rw [read_integer]
  apply read_integer_go_all_ff
  intro x hx
  obtain ⟨j, hjlt, hjx⟩ := List.getElem_of_mem hx
  have hjd : (input.drop pos)[j]? = input[pos + j]? := List.getElem?_drop input pos j
  have hjlt2 : pos + j < input.length := by
    have := hjlt
    simp only [List.length_drop] at this
    omega
  have := hff j hjlt2
  rw [← hjd, List.getElem?_eq_getElem hjlt, hjx] at this
  exact Option.some.inj this


/-! ### The slow-path literal section refines the logical literal section -/

theorem slow_literal_refines {CHECKED : Bool} {input : List UInt8} {s : Sink}
    {ip : Nat} {token : UInt8} {s' : Sink} {ip' : Nat}
    (h : slow_literal CHECKED input s ip token = .ok (s', ip'))
    (hcap : s.pos ≤ s.capacity) (hip : ip ≤ input.length) :
    s'.capacity = s.capacity ∧ s'.pos ≤ s'.capacity ∧ ip' ≤ input.length ∧
    logical_literal input s.as_slice ip token = .ok (s'.as_slice, ip') := by
  simp only [slow_literal] at h
  simp only [logical_literal]
  by_cases h0 : (token >>> 4).toNat = 0
  · rw [if_neg (not_not_intro h0)] at h
    injection h with h
    injection h with hA hB
    subst hA
    subst hB
    refine ⟨rfl, hcap, by omega, ?_⟩
    simp only [h0]
    rw [if_neg (by decide : ¬((0 : Nat) = 15))]
    show (if input.length < ip + 0 then (Res.err .LiteralOutOfBounds : Res (List UInt8 × Nat))
      else Res.ok (s.as_slice ++ sliceOf input ip 0, ip + 0)) = Res.ok (s.as_slice, ip)
    rw [if_neg (by omega), sliceOf_zero, List.append_nil]
    rfl
  · rw [if_pos h0] at h
    split at h
    · exact Res.noConfusion h
    · exact Res.noConfusion h
    · exact Res.noConfusion h
    · rename_i ll ipl hLS
      split at h
      · exact Res.noConfusion h
      · rename_i hbound
        split at h
        · exact Res.noConfusion h
        · rename_i hchk
          split at h
          · rename_i s1 hext
            injection h with h
            injection h with hA hB
            subst hA
            subst hB
            obtain ⟨he1, he2, he3, he4⟩ := extend_spec hext
            have hsl : (sliceOf input ipl ll).length = ll := sliceOf_length (by omega)
            rw [hsl] at he1 he2
            refine ⟨he3, by omega, by omega, ?_⟩
            rw [if_neg hbound, extend_as_slice hext]
          · exact Res.noConfusion h

/-- A successful slow-path literal section leaves the cursor within the
input (needed for the only-termination result). -/
theorem slow_literal_ip_le {CHECKED : Bool} {input : List UInt8} {s : Sink}
    {ip : Nat} {token : UInt8} {s' : Sink} {ip' : Nat}
    (h : slow_literal CHECKED input s ip token = .ok (s', ip')) (hip : ip ≤ input.length) :
    ip' ≤ input.length := by
  simp only [slow_literal] at h
  by_cases h0 : (token >>> 4).toNat = 0
  · rw [if_neg (not_not_intro h0)] at h
    injection h with h
    injection h with hA hB
    omega
  · rw [if_pos h0] at h
    split at h
    · exact Res.noConfusion h
    · exact Res.noConfusion h
    · exact Res.noConfusion h
    · rename_i ll ipl hLS
      split at h
      · exact Res.noConfusion h
      · rename_i hbound
        split at h
        · exact Res.noConfusion h
        · split at h
          · rename_i s1 hext
            injection h with h
            injection h with hA hB
            omega
          · exact Res.noConfusion h

/-! ### Cursor monotonicity of the sink-mutating components -/

theorem copy_from_dict_mono {s : Sink} {dict : List UInt8} {offset ml c : Nat} {s' : Sink}
    (h : copy_from_dict s dict offset ml = .ok (c, s')) : s.pos ≤ s'.pos := by
  simp only [copy_from_dict] at h
  split at h
  · exact Res.noConfusion h
  · split at h
    · rename_i s1 hext
      injection h with h
      injection h with hA hB
      subst hB
      obtain ⟨_, he2, _, _⟩ := extend_spec hext
      omega
    · exact Res.noConfusion h

theorem duplicate_overlapping_slice_mono {s : Sink} {offset ml : Nat} {s' : Sink}
    (h : duplicate_overlapping_slice s offset ml = .ok s') : s.pos ≤ s'.pos := by
  simp only [duplicate_overlapping_slice] at h
  split at h
  · exact Res.noConfusion h
  · split at h
    · split at h
      · exact Res.noConfusion h
      · split at h
        · injection h with h
          subst h
          show s.pos ≤ s.pos + ml
          omega
        · exact Res.noConfusion h
    · exact copy_back_loop_mono ml s _ s' h

theorem duplicate_slice_mono {s : Sink} {offset ml : Nat} {s' : Sink}
    (h : duplicate_slice s offset ml = .ok s') : s.pos ≤ s'.pos := by
  simp only [duplicate_slice] at h
  split at h
  · exact duplicate_overlapping_slice_mono h
  · split at h
    · exact Res.noConfusion h
    · split at h
      · split at h
        · exact Res.noConfusion h
        · rename_i s1 hcc
          injection h with h
          subst h
          show s.pos ≤ s.pos + ml
          omega
      · split at h
        · exact Res.noConfusion h
        · rename_i out hcw
          injection h with h
          subst h
          show s.pos ≤ s.pos + ml
          omega

theorem fast_match_mono {s : Sink} {offset ml : Nat} {s' : Sink}
    (h : fast_match s offset ml = .ok s') : s.pos ≤ s'.pos := by
  simp only [fast_match] at h
  split at h
  · exact Res.noConfusion h
  · split at h
    · split at h
      · exact Res.noConfusion h
      · rename_i out hcw
        injection h with h
        subst h
        show s.pos ≤ s.pos + ml
        omega
    · exact copy_back_loop_mono ml s _ s' h

theorem slow_literal_mono {CHECKED : Bool} {input : List UInt8} {s : Sink}
    {ip : Nat} {token : UInt8} {s' : Sink} {ip' : Nat}
    (h : slow_literal CHECKED input s ip token = .ok (s', ip')) : s.pos ≤ s'.pos := by
  simp only [slow_literal] at h
  by_cases h0 : (token >>> 4).toNat = 0
  · rw [if_neg (not_not_intro h0)] at h
    injection h with h
    injection h with hA hB
    subst hA
    exact le_refl _
  · rw [if_pos h0] at h
    split at h
    · exact Res.noConfusion h
    · exact Res.noConfusion h
    · exact Res.noConfusion h
    · rename_i ll ipl hLS
      split at h
      · exact Res.noConfusion h
      · split at h
        · exact Res.noConfusion h
        · split at h
          · rename_i s1 hext
            injection h with h
            injection h with hA hB
            subst hA
            obtain ⟨_, he2, _, _⟩ := extend_spec hext
            omega
          · exact Res.noConfusion h


theorem does_token_fit_nibbles (t : UInt8) (h : does_token_fit t = true) :
    (t >>> 4).toNat ≤ 14 ∧ (t &&& 0xF).toNat ≤ 14 := by
  have hall : ∀ i : Fin 256, does_token_fit ⟨⟨i⟩⟩ = true →
      ((⟨⟨i⟩⟩ : UInt8) >>> 4).toNat ≤ 14 ∧ ((⟨⟨i⟩⟩ : UInt8) &&& 0xF).toNat ≤ 14 := by decide
  obtain ⟨⟨f⟩⟩ := t
  exact hall f h

theorem logical_literal_fast {input L : List UInt8} {ip : Nat} {token : UInt8}
    (hlit : (token >>> 4).toNat ≤ 14) (hlb : ¬ input.length < ip + (token >>> 4).toNat) :
    logical_literal input L ip token =
      .ok (L ++ sliceOf input ip (token >>> 4).toNat, ip + (token >>> 4).toNat) := by
  simp only [logical_literal]
  rw [if_neg (by omega : ¬((token >>> 4).toNat = 15))]
  show (if input.length < ip + (token >>> 4).toNat then
      (Res.err .LiteralOutOfBounds : Res (List UInt8 × Nat))
    else Res.ok (L ++ sliceOf input ip (token >>> 4).toNat, ip + (token >>> 4).toNat)) = _
  rw [if_neg hlb]

theorem loop_refines_logical (fuel : Nat) : ∀ (USE_DICT CHECKED : Bool)
    (input ext_dict : List UInt8) (s : Sink) (ip : Nat) (f : Sink) (ip' : Nat),
    decompress_loop USE_DICT CHECKED input ext_dict fuel s ip = .ok (f, ip') →
    s.pos ≤ s.capacity →
    f.pos ≤ f.capacity ∧
    decode_logical USE_DICT input ext_dict fuel s.as_slice ip = .ok (f.as_slice, ip') := by
  induction fuel with
  | zero =>
    intro _ _ _ _ _ _ _ _ h _
    exact Res.noConfusion h
  | succ fuel ih =>
    intro USE_DICT CHECKED input ext_dict s ip f ip' h hcap
    rw [decompress_loop] at h
    rw [decode_logical]
    split at h
    · exact Res.noConfusion h
    · rename_i token hTok
      simp only [] at h
      split at h
      · -- fast path
        rename_i hgate
        obtain ⟨hfit, hsin, hsout⟩ := hgate
        have hnib := does_token_fit_nibbles token hfit
        have hl14 : (token >>> 4).toNat ≤ 14 := hnib.1
        have hm14 : (token &&& 0xF).toNat ≤ 14 := hnib.2
        have hip1 : ip < input.length := (List.getElem?_eq_some_iff.mp hTok).1
        have hin18 : ip + 1 + 18 ≤ input.length := by omega
        have hout35 : s.pos + 35 ≤ s.capacity := by omega
        split at h
        · exact Res.noConfusion h
        · rename_i hlb
          split at h
          · rename_i hg16
            simp only [logical_literal_fast hl14 hlb]
            rw [if_neg (show ¬ input.length ≤ ip + 1 + (token >>> 4).toNat by omega)]
            split at h
            · exact Res.noConfusion h
            · exact Res.noConfusion h
            · exact Res.noConfusion h
            · rename_i offset hu16
              have hmlne : ¬ (MINMATCH + (token &&& 0xF).toNat = MINMATCH + 15) := by
                simp only [MINMATCH]
                omega
              simp only [if_neg hmlne]
              have hL1len : (s.as_slice ++ sliceOf input (ip + 1) (token >>> 4).toNat).length
                  = s.pos + (token >>> 4).toNat := by
                rw [List.length_append, as_slice_length hcap, sliceOf_length (by omega)]
              rw [hL1len]
              have hs1as : (Sink.mk (setRange s.output s.pos (sliceOf input (ip + 1) 16))
                  (s.pos + (token >>> 4).toNat)).as_slice
                  = s.as_slice ++ sliceOf input (ip + 1) (token >>> 4).toNat := by
                show (setRange s.output s.pos (sliceOf input (ip + 1) 16)).take
                    (s.pos + (token >>> 4).toNat) = _
                have hx16 : (sliceOf input (ip + 1) 16).length = 16 :=
                  sliceOf_length (by omega)
                have hbound16 : s.pos + (sliceOf input (ip + 1) 16).length ≤ s.output.length := by
                  rw [hx16]
                  have : s.capacity = s.output.length := rfl
                  omega
                rw [show s.pos + (token >>> 4).toNat
                    = s.pos + (token >>> 4).toNat from rfl,
                  take_setRange_add hbound16 (by omega), sliceOf_take,
                  min_eq_left (by omega)]
                rfl
              have hcap1 : (Sink.mk (setRange s.output s.pos (sliceOf input (ip + 1) 16))
                  (s.pos + (token >>> 4).toNat)).pos
                  ≤ (Sink.mk (setRange s.output s.pos (sliceOf input (ip + 1) 16))
                  (s.pos + (token >>> 4).toNat)).capacity := by
                show s.pos + (token >>> 4).toNat
                    ≤ (setRange s.output s.pos (sliceOf input (ip + 1) 16)).length
                rw [setRange_length]
                · have : s.capacity = s.output.length := rfl
                  omega
                · rw [sliceOf_length (by omega)]
                  have : s.capacity = s.output.length := rfl
                  omega
              have hMM : MINMATCH = 4 := rfl
              have hcapmk : (Sink.mk (setRange s.output s.pos (sliceOf input (ip + 1) 16))
                  (s.pos + (token >>> 4).toNat)).capacity = s.capacity := by
                show (setRange s.output s.pos (sliceOf input (ip + 1) 16)).length = s.capacity
                rw [setRange_length (by
                  rw [sliceOf_length (by omega)]
                  show s.pos + 16 ≤ s.output.length
                  exact hg16.1)]
                rfl
              have hs1pos : (Sink.mk (setRange s.output s.pos (sliceOf input (ip + 1) 16))
                  (s.pos + (token >>> 4).toNat)).pos = s.pos + (token >>> 4).toNat := rfl
              split at h
              · rename_i hdict
                rw [if_pos hdict]
                split at h
                · exact Res.noConfusion h
                · exact Res.noConfusion h
                · exact Res.noConfusion h
                · rename_i copied s2 hcfd
                  obtain ⟨hd1, hd2, hd3, hd4, hd5, hd6⟩ := copy_from_dict_ok_spec hcfd
                  rw [hs1as] at hd6
                  rw [hs1pos] at hd1 hd2 hd3 hd6
                  rw [if_neg (show ¬ ext_dict.length
                      < offset - (s.pos + (token >>> 4).toNat) by omega)]
                  rw [← hd2]
                  split at h
                  · rename_i hfull
                    rw [if_pos hfull]
                    obtain ⟨ihA, ihB⟩ := ih USE_DICT CHECKED input ext_dict s2 _ f ip' h hd5
                    refine ⟨ihA, ?_⟩
                    rw [← hd6]
                    exact ihB
                  · rename_i hfull
                    rw [if_neg hfull]
                    split at h
                    · exact Res.noConfusion h
                    · exact Res.noConfusion h
                    · exact Res.noConfusion h
                    · rename_i s3 hfm
                      obtain ⟨hf1, hf2, hf3, hf4, hf5⟩ := fast_match_ok_spec hfm hd5
                        (by simp only [MINMATCH] at *; omega)
                      rw [← hd6]
                      rw [as_slice_length hd5]
                      rw [if_neg (by omega)]
                      obtain ⟨ihA, ihB⟩ := ih USE_DICT CHECKED input ext_dict s3 _ f ip' h hf4
                      refine ⟨ihA, ?_⟩
                      rw [← hf5]
                      exact ihB
              · rename_i hdict
                rw [if_neg hdict]
                split at h
                · exact Res.noConfusion h
                · exact Res.noConfusion h
                · exact Res.noConfusion h
                · rename_i s3 hfm
                  obtain ⟨hf1, hf2, hf3, hf4, hf5⟩ := fast_match_ok_spec hfm hcap1
                    (by simp only [MINMATCH] at *; omega)
                  rw [hs1as] at hf5
                  rw [hs1pos] at hf1 hf5
                  rw [if_neg (by omega)]
                  obtain ⟨ihA, ihB⟩ := ih USE_DICT CHECKED input ext_dict s3 _ f ip' h hf4
                  refine ⟨ihA, ?_⟩
                  rw [← hf5]
                  exact ihB
          · exact Res.noConfusion h
      · -- slow path
        rename_i hgate
        have hip1 : ip < input.length := (List.getElem?_eq_some_iff.mp hTok).1
        split at h
        · exact Res.noConfusion h
        · exact Res.noConfusion h
        · exact Res.noConfusion h
        · rename_i s1 ip1 hSL
          obtain ⟨hc1, hc2, hc3, hlog⟩ := slow_literal_refines hSL hcap (by omega)
          simp only [hlog]
          split at h
          · rename_i hbreak
            injection h with h
            injection h with hA hB
            subst hA
            subst hB
            rw [if_pos hbreak]
            exact ⟨hc2, rfl⟩
          · rename_i hbreak
            rw [if_neg hbreak]
            split at h
            · exact Res.noConfusion h
            · exact Res.noConfusion h
            · exact Res.noConfusion h
            · rename_i offset hu16
              split at h
              · exact Res.noConfusion h
              · exact Res.noConfusion h
              · exact Res.noConfusion h
              · rename_i ml ip3 hML
                split at h
                · exact Res.noConfusion h
                · rename_i hchk
                  rw [as_slice_length hc2]
                  split at h
                  · rename_i hdict
                    rw [if_pos hdict]
                    split at h
                    · exact Res.noConfusion h
                    · exact Res.noConfusion h
                    · exact Res.noConfusion h
                    · rename_i copied s2 hcfd
                      obtain ⟨hd1, hd2, hd3, hd4, hd5, hd6⟩ := copy_from_dict_ok_spec hcfd
                      rw [if_neg (show ¬ ext_dict.length < offset - s1.pos by omega)]
                      rw [← hd2]
                      split at h
                      · rename_i hfull
                        rw [if_pos hfull]
                        obtain ⟨ihA, ihB⟩ := ih USE_DICT CHECKED input ext_dict s2 _ f ip' h hd5
                        refine ⟨ihA, ?_⟩
                        rw [← hd6]
                        exact ihB
                      · rename_i hfull
                        rw [if_neg hfull]
                        split at h
                        · exact Res.noConfusion h
                        · exact Res.noConfusion h
                        · exact Res.noConfusion h
                        · rename_i s3 hds
                          obtain ⟨hq1, hq2, hq3, hq4, hq5⟩ := duplicate_slice_ok_spec hds hd5
                          rw [← hd6, as_slice_length hd5, if_neg (by omega)]
                          obtain ⟨ihA, ihB⟩ := ih USE_DICT CHECKED input ext_dict s3 _ f ip' h hq4
                          refine ⟨ihA, ?_⟩
                          rw [← hq5]
                          exact ihB
                  · rename_i hdict
                    rw [if_neg hdict]
                    split at h
                    · exact Res.noConfusion h
                    · exact Res.noConfusion h
                    · exact Res.noConfusion h
                    · rename_i s3 hds
                      obtain ⟨hq1, hq2, hq3, hq4, hq5⟩ := duplicate_slice_ok_spec hds hc2
                      rw [if_neg (by omega)]
                      obtain ⟨ihA, ihB⟩ := ih USE_DICT CHECKED input ext_dict s3 _ f ip' h hq4
                      refine ⟨ihA, ?_⟩
                      rw [← hq5]
                      exact ihB


theorem loop_ok_consumes (fuel : Nat) : ∀ (USE_DICT CHECKED : Bool)
    (input ext_dict : List UInt8) (s : Sink) (ip : Nat) (f : Sink) (ip' : Nat),
    decompress_loop USE_DICT CHECKED input ext_dict fuel s ip = .ok (f, ip') →
    ip' = input.length := by
  induction fuel with
  | zero =>
    intro _ _ _ _ _ _ _ _ h
    exact Res.noConfusion h
  | succ fuel ih =>
    intro USE_DICT CHECKED input ext_dict s ip f ip' h
    rw [decompress_loop] at h
    split at h
    · exact Res.noConfusion h
    · rename_i token hTok
      simp only [] at h
      split at h
      · split at h
        · exact Res.noConfusion h
        · split at h
          · split at h
            · exact Res.noConfusion h
            · exact Res.noConfusion h
            · exact Res.noConfusion h
            · split at h
              · split at h
                · exact Res.noConfusion h
                · exact Res.noConfusion h
                · exact Res.noConfusion h
                · split at h
                  · exact ih _ _ _ _ _ _ _ _ h
                  · split at h
                    · exact Res.noConfusion h
                    · exact Res.noConfusion h
                    · exact Res.noConfusion h
                    · exact ih _ _ _ _ _ _ _ _ h
              · split at h
                · exact Res.noConfusion h
                · exact Res.noConfusion h
                · exact Res.noConfusion h
                · exact ih _ _ _ _ _ _ _ _ h
          · exact Res.noConfusion h
      · split at h
        · exact Res.noConfusion h
        · exact Res.noConfusion h
        · exact Res.noConfusion h
        · rename_i s1 ip1 hSL
          split at h
          · rename_i hbreak
            injection h with h
            injection h with hA hB
            subst hB
            have hip1le : ip1 ≤ input.length := slow_literal_ip_le hSL (by
              have : ip < input.length := (List.getElem?_eq_some_iff.mp hTok).1
              omega)
            omega
          · split at h
            · exact Res.noConfusion h
            · exact Res.noConfusion h
            · exact Res.noConfusion h
            · split at h
              · exact Res.noConfusion h
              · exact Res.noConfusion h
              · exact Res.noConfusion h
              · split at h
                · exact Res.noConfusion h
                · split at h
                  · split at h
                    · exact Res.noConfusion h
                    · exact Res.noConfusion h
                    · exact Res.noConfusion h
                    · split at h
                      · exact ih _ _ _ _ _ _ _ _ h
                      · split at h
                        · exact Res.noConfusion h
                        · exact Res.noConfusion h
                        · exact Res.noConfusion h
                        · exact ih _ _ _ _ _ _ _ _ h
                  · split at h
                    · exact Res.noConfusion h
                    · exact Res.noConfusion h
                    · exact Res.noConfusion h
                    · exact ih _ _ _ _ _ _ _ _ h

theorem loop_pos_mono (fuel : Nat) : ∀ (USE_DICT CHECKED : Bool)
    (input ext_dict : List UInt8) (s : Sink) (ip : Nat) (f : Sink) (ip' : Nat),
    decompress_loop USE_DICT CHECKED input ext_dict fuel s ip = .ok (f, ip') →
    s.pos ≤ f.pos := by
  induction fuel with
  | zero =>
    intro _ _ _ _ _ _ _ _ h
    exact Res.noConfusion h
  | succ fuel ih =>
    intro USE_DICT CHECKED input ext_dict s ip f ip' h
    rw [decompress_loop] at h
    split at h
    · exact Res.noConfusion h
    · rename_i token hTok
      simp only [] at h
      split at h
      · split at h
        · exact Res.noConfusion h
        · split at h
          · split at h
            · exact Res.noConfusion h
            · exact Res.noConfusion h
            · exact Res.noConfusion h
            · rename_i offset hu16
              have hstep : s.pos ≤ (Sink.mk (setRange s.output s.pos
                  (sliceOf input (ip + 1) 16)) (s.pos + (token >>> 4).toNat)).pos := by
                show s.pos ≤ s.pos + (token >>> 4).toNat
                omega
              split at h
              · split at h
                · exact Res.noConfusion h
                · exact Res.noConfusion h
                · exact Res.noConfusion h
                · rename_i copied s2 hcfd
                  have hm1 := copy_from_dict_mono hcfd
                  split at h
                  · have := ih _ _ _ _ _ _ _ _ h
                    omega
                  · split at h
                    · exact Res.noConfusion h
                    · exact Res.noConfusion h
                    · exact Res.noConfusion h
                    · rename_i s3 hfm
                      have hm2 := fast_match_mono hfm
                      have := ih _ _ _ _ _ _ _ _ h
                      omega
              · split at h
                · exact Res.noConfusion h
                · exact Res.noConfusion h
                · exact Res.noConfusion h
                · rename_i s3 hfm
                  have hm2 := fast_match_mono hfm
                  have := ih _ _ _ _ _ _ _ _ h
                  omega
          · exact Res.noConfusion h
      · split at h
        · exact Res.noConfusion h
        · exact Res.noConfusion h
        · exact Res.noConfusion h
        · rename_i s1 ip1 hSL
          have hm0 := slow_literal_mono hSL
          split at h
          · injection h with h
            injection h with hA hB
            subst hA
            exact hm0
          · split at h
            · exact Res.noConfusion h
            · exact Res.noConfusion h
            · exact Res.noConfusion h
            · split at h
              · exact Res.noConfusion h
              · exact Res.noConfusion h
              · exact Res.noConfusion h
              · split at h
                · exact Res.noConfusion h
                · split at h
                  · split at h
                    · exact Res.noConfusion h
                    · exact Res.noConfusion h
                    · exact Res.noConfusion h
                    · rename_i copied s2 hcfd
                      have hm1 := copy_from_dict_mono hcfd
                      split at h
                      · have := ih _ _ _ _ _ _ _ _ h
                        omega
                      · split at h
                        · exact Res.noConfusion h
                        · exact Res.noConfusion h
                        · exact Res.noConfusion h
                        · rename_i s3 hds
                          have hm2 := duplicate_slice_mono hds
                          have := ih _ _ _ _ _ _ _ _ h
                          omega
                  · split at h
                    · exact Res.noConfusion h
                    · exact Res.noConfusion h
                    · exact Res.noConfusion h
                    · rename_i s3 hds
                      have hm2 := duplicate_slice_mono hds
                      have := ih _ _ _ _ _ _ _ _ h
                      omega

theorem duplicate_overlapping_slice_success {s : Sink} {offset ml : Nat}
    (h1 : 1 ≤ offset) (h2 : offset ≤ s.pos) (h4 : s.pos + ml ≤ s.capacity) :
    ∃ s', duplicate_overlapping_slice s offset ml = .ok s' := by
  simp only [duplicate_overlapping_slice]
  rw [if_neg (by omega)]
  by_cases ho : offset = 1
  · rw [if_pos ho]
    have hlt : s.pos - offset < s.as_slice.length := by
      rw [as_slice_length (by omega)]
      omega
    rw [List.getElem?_eq_getElem hlt]
    have hfill : fillRange s.output s.pos ml (s.as_slice[s.pos - offset])
        = some (setRange s.output s.pos (List.replicate ml (s.as_slice[s.pos - offset]))) := by
      rw [fillRange, if_pos (show s.pos + ml ≤ s.output.length from h4)]
    refine ⟨⟨setRange s.output s.pos (List.replicate ml (s.as_slice[s.pos - offset])),
      s.pos + ml⟩, ?_⟩
    simp only [hfill]
  · rw [if_neg ho]
    exact copy_back_loop_success ml s (s.pos - offset) (by omega) h4


/-! ### The claims -/

theorem zeroSink_pos (c : Nat) : (zeroSink c).pos = 0 := rfl

/-- C1 (counterexample): the claim says a match whose 16-bit offset field
decodes to 0 fails with `OffsetOutOfBounds`. Decoding `[0x00, 0x00, 0x00]`
(token 0, offset field 0) instead panics: offset 0 never trips the
`overflowing_sub` check and reaches the byte-at-a-time copy loop, whose
first read `as_slice()[pos]` is out of bounds. -/
theorem C1_offset_zero_counterexample :
    decompress_into false [0x00, 0x00, 0x00] (zeroSink 8) = Res.crash ∧
    decompress_into false [0x00, 0x00, 0x00] (zeroSink 8) ≠ Res.err .OffsetOutOfBounds := by
  decide

/-- C1 (amended): a match with offset 0 and any match length ≥ 1 (every
decoded match length is ≥ MINMATCH = 4) makes both match copiers panic with
an out-of-bounds read of the written region; offset 0 is never reported as
`OffsetOutOfBounds`. -/
theorem C1_offset_zero_crashes (s : Sink) (ml : Nat) (h : 1 ≤ ml) :
    duplicate_slice s 0 ml = Res.crash ∧ fast_match s 0 ml = Res.crash := by
  obtain ⟨k, rfl⟩ : ∃ k, ml = k + 1 := ⟨ml - 1, by omega⟩
  constructor
  · simp only [duplicate_slice]
    rw [if_pos (by omega)]
    simp only [duplicate_overlapping_slice]
    rw [if_neg (by omega), if_neg (by omega), Nat.sub_zero]
    exact copy_back_loop_at_pos_crash s k
  · simp only [fast_match]
    rw [if_neg (by omega), if_neg (by omega), Nat.sub_zero]
    exact copy_back_loop_at_pos_crash s k

/-- C1 (witness): the amended claim at a concrete sink and match length. -/
theorem C1_offset_zero_crashes_witness :
    duplicate_slice (zeroSink 8) 0 4 = Res.crash ∧ fast_match (zeroSink 8) 0 4 = Res.crash :=
  C1_offset_zero_crashes (zeroSink 8) 4 (by decide)

/-- C2 (code_bug): the spec requires LSIC accumulator overflow (sum beyond
`2 ^ 32 - 1`) to be reported as malformed input; `read_integer`'s `u32`
accumulator instead wraps. On 16843010 `0xFF` bytes followed by `0x00` the
true sum is `255 * 16843010 = 4294967550 ≥ U32_MOD`, yet the reader returns
the wrapped value 254 with no error. -/
theorem C2_lsic_overflow_wraps :
    read_integer overflowInput 0 = Res.ok (254, 16843011) ∧
    255 * 16843010 = 4294967550 ∧ U32_MOD ≤ 4294967550 ∧ 4294967550 % U32_MOD = 254 := by
  refine ⟨?_, by norm_num, by norm_num [U32_MOD], by norm_num [U32_MOD]⟩
  have h := read_integer_go_replicate 16843010 0 0 0x00 [] (by decide)
  rw [read_integer, overflowInput, List.drop_zero, h]
  norm_num [U32_MOD, show (0x00 : UInt8).toNat = 0 from rfl]

/-- C3 (code_bug): the claim states that under the fast-path gate every
index touched by the oversized copies is in bounds, including after a
dictionary splice. Concretely: `fastDictInput` with the 17-byte dictionary
and sink capacity 35 passes the gate (`pos = 0 < 35 - 34`), the splice
advances `pos` to 31, and the unconditional 18-byte match copy then writes
up to index 49 > 35: the decoder panics (out-of-bounds `copy_within`). -/
theorem C3_fast_dict_overcopy_crash :
    decompress_into_with_dict false fastDictInput (zeroSink 35) fastDictDict = Res.crash := by
  decide

/-- C4 (counterexample): `truncBlock` is a valid block (it decodes to 6
bytes), yet removing its last `k = 3` bytes yields an input that decodes
successfully to 2 bytes — a silent success, contradicting the claim for
this `k ≥ 1`. -/
theorem C4_truncation_counterexample :
    Res.countOf (decompress_into false truncBlock (zeroSink 6)) = some 6 ∧
    Res.countOf (decompress_into false (truncBlock.take 3) (zeroSink 6)) = some 2 := by
  decide

/-- C4 (amended): truncating a valid block yields an error unless the
truncated input is itself a complete block: every successful run of the
decode loop consumes its input entirely (the loop returns successfully only
through the after-literal end-of-input check), so a silently succeeding
truncation is exactly one that parses as a complete block on its own. -/
theorem C4_success_consumes_input (USE_DICT CHECKED : Bool)
    (input ext_dict : List UInt8) (fuel : Nat) (s f : Sink) (ip ip' : Nat)
    (h : decompress_loop USE_DICT CHECKED input ext_dict fuel s ip = Res.ok (f, ip')) :
    ip' = input.length :=
  loop_ok_consumes fuel USE_DICT CHECKED input ext_dict s ip f ip' h

/-- C4 (witness): the amended claim at a concrete successful decode. -/
theorem C4_success_consumes_input_witness : (1 : Nat) = ([0x00] : List UInt8).length :=
  C4_success_consumes_input false false [0x00] [] 2 (zeroSink 3) (zeroSink 3) 0 1 (by decide)

/-- C5 (counterexample): with `fastDictInput` and `fastDictDict` the decode
at capacity 100 succeeds and writes `N = 33` bytes, while the decode at
capacity 35 — also at least `N` — panics in the fast path: for this input
two sink capacities both ≥ N do not both succeed, refuting the two-run
claim as stated. -/
theorem C5_capacity_counterexample :
    Res.countOf (decompress_into_with_dict false fastDictInput (zeroSink 100) fastDictDict)
      = some 33 ∧
    decompress_into_with_dict false fastDictInput (zeroSink 35) fastDictDict = Res.crash ∧
    (33 : Nat) ≤ 35 ∧ (33 : Nat) ≤ 100 := by
  decide

/-- C5 (amended): decompression is deterministic and capacity-independent
given success: any two successful runs on the same input and dictionary,
from zero-filled sinks of any two capacities (and either setting of the
checked-decode feature), return the same written count and write the same
bytes. (Capacities ≥ N alone do not guarantee both runs succeed — see the
counterexample — so success is assumed rather than derived.) -/
theorem C5_deterministic_given_success (USE_DICT CHECKED1 CHECKED2 : Bool)
    (input ext_dict : List UInt8) (c1 c2 n1 n2 : Nat) (f1 f2 : Sink)
    (h1 : decompress_internal USE_DICT CHECKED1 input (zeroSink c1) ext_dict = Res.ok (n1, f1))
    (h2 : decompress_internal USE_DICT CHECKED2 input (zeroSink c2) ext_dict = Res.ok (n2, f2)) :
    n1 = n2 ∧ f1.as_slice = f2.as_slice := by
  simp only [decompress_internal] at h1 h2
  split at h1
  · rename_i f1' ip1 hloop1
    split at h2
    · rename_i f2' ip2 hloop2
      injection h1 with h1'
      injection h1' with hn1 hf1
      subst hn1
      subst hf1
      injection h2 with h2'
      injection h2' with hn2 hf2
      subst hn2
      subst hf2
      obtain ⟨hA1, hB1⟩ := loop_refines_logical (input.length + 1) USE_DICT CHECKED1 input
        ext_dict (zeroSink c1) 0 f1' ip1 hloop1 (by rw [zeroSink_pos]; omega)
      obtain ⟨hA2, hB2⟩ := loop_refines_logical (input.length + 1) USE_DICT CHECKED2 input
        ext_dict (zeroSink c2) 0 f2' ip2 hloop2 (by rw [zeroSink_pos]; omega)
      have hz1 : (zeroSink c1).as_slice = [] := rfl
      have hz2 : (zeroSink c2).as_slice = [] := rfl
      rw [hz1] at hB1
      rw [hz2] at hB2
      rw [hB1] at hB2
      injection hB2 with hB2'
      injection hB2' with hEq hIp
      refine ⟨?_, hEq⟩
      have l1 : f1'.as_slice.length = f1'.pos := as_slice_length hA1
      have l2 : f2'.as_slice.length = f2'.pos := as_slice_length hA2
      rw [hEq] at l1
      show f1'.pos - (zeroSink c1).pos = f2'.pos - (zeroSink c2).pos
      rw [zeroSink_pos, zeroSink_pos]
      omega
    · exact Res.noConfusion h2
    · exact Res.noConfusion h2
    · exact Res.noConfusion h2
  · exact Res.noConfusion h1
  · exact Res.noConfusion h1
  · exact Res.noConfusion h1

/-- C5 (witness): the amended claim at capacities 4 and 7 on the
literal-only block `30 61 34 39`. -/
theorem C5_deterministic_witness :
    (3 : Nat) = 3 ∧ (Sink.mk [0x61, 0x34, 0x39, 0x00] 3).as_slice
      = (Sink.mk [0x61, 0x34, 0x39, 0x00, 0x00, 0x00, 0x00] 3).as_slice :=
  C5_deterministic_given_success false false false [0x30, 0x61, 0x34, 0x39] [] 4 7 3 3
    (Sink.mk [0x61, 0x34, 0x39, 0x00] 3) (Sink.mk [0x61, 0x34, 0x39, 0x00, 0x00, 0x00, 0x00] 3)
    (by decide) (by decide)

/-- C6 (confirmed): the overlapping copier, invoked with
`1 ≤ offset ≤ sink.pos`, `match_length > offset` and room in the buffer
(spec §4.D precondition `sink.pos + match_length ≤ capacity`), succeeds and
realises the byte-by-byte left-to-right semantics: the byte written at
`pos + i` is the pre-copy byte at `pos - offset + (i % offset)` — for
`offset = 1` a run-fill with the byte at `pos - 1`. -/
theorem C6_overlapping_copy (s : Sink) (offset ml : Nat) (h1 : 1 ≤ offset)
    (h2 : offset ≤ s.pos) (h3 : offset < ml) (h4 : s.pos + ml ≤ s.capacity) :
    (duplicate_overlapping_slice s offset ml).isOk = true ∧
    (duplicate_overlapping_slice s offset ml).sinkOf.pos = s.pos + ml ∧
    ∀ i, i < ml →
      (duplicate_overlapping_slice s offset ml).sinkOf.output[s.pos + i]? =
        s.output[s.pos - offset + i % offset]? := by
  obtain ⟨s', hok⟩ := duplicate_overlapping_slice_success h1 h2 h4
  obtain ⟨e0, e1, e2, e3, e4⟩ := duplicate_overlapping_slice_ok_spec hok (by omega)
  rw [hok]
  refine ⟨rfl, e1, ?_⟩
  intro i hi
  have hlt : s.pos + i < s'.pos := by omega
  show s'.output[s.pos + i]? = _
  rw [← getElem?_as_slice_of_lt hlt, e4]
  have hLlen : s.as_slice.length = s.pos := as_slice_length (by omega)
  have hme := @matchExtend_getElem ml s.as_slice offset i h1 (by omega) hi
  rw [hLlen] at hme
  rw [hme, List.getD_eq_getElem?_getD, getElem?_as_slice_of_lt (by
    have := Nat.mod_lt i (show 0 < offset by omega)
    omega)]
  rw [List.getElem?_eq_getElem (show s.pos - offset + i % offset < s.output.length by
    have hco : s.capacity = s.output.length := rfl
    have := Nat.mod_lt i (show 0 < offset by omega)
    omega)]
  rfl

/-- C6 (witness): the confirmed claim at a concrete overlapping copy
(`pos = 4`, `offset = 2`, `match_length = 5`, byte index `i = 3`). -/
theorem C6_overlapping_copy_witness :
    (duplicate_overlapping_slice (Sink.mk [1, 2, 3, 4, 5, 6, 7, 8, 9, 10] 4) 2 5).sinkOf.output[4 + 3]?
      = (Sink.mk [1, 2, 3, 4, 5, 6, 7, 8, 9, 10] 4).output[4 - 2 + 3 % 2]? :=
  (C6_overlapping_copy (Sink.mk [1, 2, 3, 4, 5, 6, 7, 8, 9, 10] 4) 2 5 (by decide) (by decide)
    (by decide) (by decide)).2.2 3 (by decide)

/-- C7 (confirmed): the dictionary splicer called with `offset > sink.pos`:
if `behind = offset - sink.pos` exceeds `dict.length` it fails with
`OffsetOutOfBounds` (returning no new sink, so the sink is unchanged);
otherwise — provided the spliced bytes fit the capacity, as every write
does (spec §4.A) — it appends exactly `min match_length behind` bytes taken
from the dictionary starting at `dict.length - behind`, returns that count,
and advances the cursor by it. -/
theorem C7_copy_from_dict_spec (s : Sink) (dict : List UInt8) (offset ml : Nat)
    (_hgt : s.pos < offset) :
    (dict.length < offset - s.pos →
      copy_from_dict s dict offset ml = Res.err .OffsetOutOfBounds) ∧
    (offset - s.pos ≤ dict.length →
      s.pos + min ml (offset - s.pos) ≤ s.capacity →
      copy_from_dict s dict offset ml =
        Res.ok (min ml (offset - s.pos),
          ⟨setRange s.output s.pos
            (sliceOf dict (dict.length - (offset - s.pos)) (min ml (offset - s.pos))),
           s.pos + min ml (offset - s.pos)⟩)) := by
  constructor
  · intro hb
    simp only [copy_from_dict]
    rw [if_pos hb]
  · intro hb hcap
    simp only [copy_from_dict]
    rw [if_neg (by omega)]
    have hmin : min ml (dict.length - (dict.length - (offset - s.pos)))
        = min ml (offset - s.pos) := by omega
    rw [hmin]
    have hsl : (sliceOf dict (dict.length - (offset - s.pos)) (min ml (offset - s.pos))).length
        = min ml (offset - s.pos) := sliceOf_length (by omega)
    have hext : s.extend_from_slice (sliceOf dict (dict.length - (offset - s.pos))
        (min ml (offset - s.pos)))
        = some ⟨setRange s.output s.pos (sliceOf dict (dict.length - (offset - s.pos))
            (min ml (offset - s.pos))),
          s.pos + (sliceOf dict (dict.length - (offset - s.pos))
            (min ml (offset - s.pos))).length⟩ := by
      rw [Sink.extend_from_slice, if_pos (by rw [hsl]; exact hcap)]
    simp only [hext, hsl]

/-- C7 (witness): the confirmed claim at a concrete splice (`pos = 2`,
5-byte dictionary, `offset = 5`, `match_length = 2`; `behind = 3`). -/
theorem C7_copy_from_dict_spec_witness :
    copy_from_dict (Sink.mk (List.replicate 10 0) 2) [1, 2, 3, 4, 5] 5 2 =
      Res.ok (min 2 (5 - (Sink.mk (List.replicate 10 0) 2).pos),
        ⟨setRange (Sink.mk (List.replicate 10 0) 2).output 2
          (sliceOf [1, 2, 3, 4, 5] (([1, 2, 3, 4, 5] : List UInt8).length - (5 - 2))
            (min 2 (5 - 2))), 2 + min 2 (5 - 2)⟩) :=
  (C7_copy_from_dict_spec (Sink.mk (List.replicate 10 0) 2) [1, 2, 3, 4, 5] 5 2
    (by decide)).2 (by decide) (by decide)

/-- C8 (counterexample): the claim says the LSIC reader returns the sum of
all consumed bytes; on 16843010 `0xFF` bytes with terminator `0x01` the sum
`255 * 16843010 + 1` exceeds `2 ^ 32 - 1` and the reader returns the
wrapped value 255 instead. -/
theorem C8_lsic_counterexample :
    read_integer overflowInputB 0 = Res.ok (255, 16843011) ∧
    255 * 16843010 + 1 ≠ 255 := by
  constructor
  · have h := read_integer_go_replicate 16843010 0 0 0x01 [] (by decide)
    rw [read_integer, overflowInputB, List.drop_zero, h]
    norm_num [U32_MOD, show (0x01 : UInt8).toNat = 1 from rfl]
  · norm_num

/-- C8 (amended): the LSIC reader consumes bytes one at a time while each
equals `0xFF`, also consumes the first byte below `0xFF`, returns the sum
of all consumed bytes reduced modulo `2 ^ 32` (the `u32` accumulator
wraps), advancing the cursor past the terminator; it fails with
`ExpectedAnotherByte` when the input ends before a byte below `0xFF`. -/
theorem C8_lsic_reader_spec (input : List UInt8) (pos k : Nat) (b : UInt8) :
    ((∀ i, i < k → input[pos + i]? = some 0xFF) → input[pos + k]? = some b → b ≠ 0xFF →
      read_integer input pos = Res.ok ((255 * k + b.toNat) % U32_MOD, pos + k + 1)) ∧
    ((∀ i, pos + i < input.length → input[pos + i]? = some 0xFF) →
      read_integer input pos = Res.err .ExpectedAnotherByte) :=
  ⟨fun hff hb hbne => read_integer_spec_found hff hb hbne,
   fun hff => read_integer_spec_exhausted hff⟩

/-- C8 (witness): the amended claim on `FF 03` (one continuation byte, sum
258) at cursor 0. -/
theorem C8_lsic_reader_spec_witness :
    read_integer [0xFF, 0x03] 0 = Res.ok ((255 * 1 + (0x03 : UInt8).toNat) % U32_MOD, 0 + 1 + 1) :=
  (C8_lsic_reader_spec [0xFF, 0x03] 0 1 0x03).1 (by decide) (by decide) (by decide)

/-- C9 (counterexample): the cursor is not non-decreasing at the level of
single sink operations: in `duplicate_slice` with `pos = 4`, `offset = 4`,
`match_length = 4` and capacity 40, the 16-byte blocked copy loop leaves
the cursor at 20, and the final `set_pos` then moves it down to 8. -/
theorem C9_pos_counterexample :
    chunkPos (chunk_copy (Sink.mk (List.replicate 40 7) 4) 0 1) = 20 ∧
    (Res.sinkOf (duplicate_slice (Sink.mk (List.replicate 40 7) 4) 4 4)).pos = 8 ∧
    (8 : Nat) < 20 := by
  decide

/-- C9 (amended): the cursor is monotonically non-decreasing across every
complete sink-mutating component call — `duplicate_slice`,
`duplicate_overlapping_slice`, `copy_from_dict`, `fast_match`, the literal
section — and across the whole decode loop; only inside `duplicate_slice`'s
16-byte blocked copy does the cursor transiently overshoot before `set_pos`
brings it back down to the exact end (which is still at least the entry
cursor). -/
theorem C9_pos_monotone :
    (∀ (s : Sink) (offset ml : Nat) (s' : Sink),
      duplicate_slice s offset ml = Res.ok s' → s.pos ≤ s'.pos) ∧
    (∀ (s : Sink) (offset ml : Nat) (s' : Sink),
      duplicate_overlapping_slice s offset ml = Res.ok s' → s.pos ≤ s'.pos) ∧
    (∀ (s : Sink) (dict : List UInt8) (offset ml c : Nat) (s' : Sink),
      copy_from_dict s dict offset ml = Res.ok (c, s') → s.pos ≤ s'.pos) ∧
    (∀ (s : Sink) (offset ml : Nat) (s' : Sink),
      fast_match s offset ml = Res.ok s' → s.pos ≤ s'.pos) ∧
    (∀ (CHECKED : Bool) (input : List UInt8) (s : Sink) (ip : Nat) (token : UInt8)
      (s' : Sink) (ip' : Nat),
      slow_literal CHECKED input s ip token = Res.ok (s', ip') → s.pos ≤ s'.pos) ∧
    (∀ (USE_DICT CHECKED : Bool) (input ext_dict : List UInt8) (fuel : Nat)
      (s : Sink) (ip : Nat) (f : Sink) (ip' : Nat),
      decompress_loop USE_DICT CHECKED input ext_dict fuel s ip = Res.ok (f, ip') →
      s.pos ≤ f.pos) :=
  ⟨fun _ _ _ _ h => duplicate_slice_mono h,
   fun _ _ _ _ h => duplicate_overlapping_slice_mono h,
   fun _ _ _ _ _ _ h => copy_from_dict_mono h,
   fun _ _ _ _ h => fast_match_mono h,
   fun _ _ _ _ _ _ _ h => slow_literal_mono h,
   fun _ _ _ _ fuel _ _ _ _ h => loop_pos_mono fuel _ _ _ _ _ _ _ _ h⟩

/-- C9 (witness): the amended claim's loop clause on a concrete run (the
literal-only block `30 61 34 39`): the cursor does not decrease. -/
theorem C9_pos_monotone_witness : (zeroSink 3).pos ≤ (Sink.mk [0x61, 0x34, 0x39] 3).pos :=
  C9_pos_monotone.2.2.2.2.2 false false [0x30, 0x61, 0x34, 0x39] [] 5 (zeroSink 3) 0
    (Sink.mk [0x61, 0x34, 0x39] 3) 4 (by decide)

/-- C10 (confirmed): decompressing the one-byte input `[0x00]` — a token
with both nibbles zero — succeeds with 0 written bytes and leaves any sink
unchanged, under either setting of the checked-decode feature: a block may
terminate with a final sequence carrying zero literals. -/
theorem C10_zero_token_block (CHECKED : Bool) (s : Sink) :
    decompress_into CHECKED [0x00] s = Res.ok (0, s) := by
  have hsl : slow_literal CHECKED [0x00] s 1 0x00 = Res.ok (s, 1) := by
    simp only [slow_literal]
    rw [if_neg (by decide)]
  have hloop : decompress_loop false CHECKED [0x00] [] (([0x00] : List UInt8).length + 1) s 0
      = Res.ok (s, 1) := by
    rw [decompress_loop]
    simp only [show (([0x00] : List UInt8))[0]? = some 0x00 from rfl]
    rw [if_neg (by
      rintro ⟨-, h2, -⟩
      norm_num at h2)]
    simp only [hsl]
    rw [if_pos (by norm_num)]
  rw [decompress_into, decompress_internal]
  simp only [hloop, Nat.sub_self]

end LZ4Flex
